import Mathlib

/-!
Verification of the link-lifecycle / admission-control core of the
NeuronAutomator repository (src/link_manager.py and src/blacklist_rewind.py).

The Python code is shallowly embedded:
* URL strings are Lean `String`s, manipulated as `List Char`.
* `urllib.parse.urlparse` is embedded as `pyUrlparse` following CPython's
  `urlsplit`/`urlparse` (scheme detection, `//netloc` extraction with the
  IPv6-bracket validity check that raises `ValueError`, fragment split,
  query split, params split).  A raised `ValueError` is modelled by `none`.
* `hashlib.md5(normalized).hexdigest()` is modelled by the normalized
  canonical string itself: the digest is a fixed injective function of its
  input in this model, so equality/inequality of hashes coincides with
  equality/inequality of canonical strings (md5 collisions are outside the
  model, as the spec assumes a collision-resistant digest).
* Calendar dates are modelled by integers (their ordinal day number):
  `date.today() - timedelta(days=n)` is `today - n`, date comparison is
  integer comparison (ISO-8601 text ordering used by SQLite agrees with
  date order).  A `DATE` column cell is a `DateStr`: either a string that
  parses as a date (carrying its value) or a non-date string, so that
  `datetime.strptime` failure is representable.
* The SQLite store is a record of three row lists plus AUTOINCREMENT
  counters; each SQL statement of the source is a function on this record.
* Python's ASCII-relevant `str.lower`/`str.strip` are modelled on ASCII
  (the claims only involve ASCII URLs).
-/

namespace NeuronAuto

/-- ASCII lower-casing of one character (model of Python `str.lower` on the
ASCII range, which is all the claims exercise). -/
def asciiLower (c : Char) : Char :=
  if 'A' ≤ c ∧ c ≤ 'Z' then Char.ofNat (c.toNat + 32) else c

/-- Model of Python `str.lower` on a character list. -/
def lowerL (l : List Char) : List Char := l.map asciiLower

/-- Whitespace as stripped by `str.strip` (ASCII fragment). -/
def isWs (c : Char) : Bool := c = ' ' ∨ c = '\t' ∨ c = '\n' ∨ c = '\r'

/-- Drop leading whitespace (left part of `str.strip`). -/
def stripLeft (l : List Char) : List Char := l.dropWhile isWs

/-- Drop trailing whitespace (right part of `str.strip`). -/
def stripRight (l : List Char) : List Char := (l.reverse.dropWhile isWs).reverse

/-- Model of Python `str.strip()`. -/
def stripL (l : List Char) : List Char := stripRight (stripLeft l)

/-- CPython's `urlsplit` removes tab, CR and LF anywhere in the URL before
parsing (`_UNSAFE_URL_BYTES_TO_REMOVE`). -/
def removeUnsafe (l : List Char) : List Char :=
  l.filter (fun c => ¬ (c = '\t' ∨ c = '\r' ∨ c = '\n'))

/-- Split a list at the first occurrence of `c`: `some (before, after)`,
or `none` when `c` does not occur (model of `str.split(c, 1)` /
`str.find`-based splitting in CPython's url parsing). -/
def splitAtFirst (c : Char) : List Char → Option (List Char × List Char)
  | [] => none
  | x :: xs =>
    if x = c then some ([], xs)
    else (splitAtFirst c xs).map (fun p => (x :: p.1, p.2))

/-- Characters allowed in a URL scheme (`scheme_chars` in CPython). -/
def isSchemeChar (c : Char) : Bool :=
  c.isAlphanum ∨ c = '+' ∨ c = '-' ∨ c = '.'

/-- Scheme detection of CPython `urlsplit`: the part before the first `:`
is a scheme when it is nonempty, starts with an ASCII letter and consists
of scheme characters; the scheme is lower-cased.  Otherwise the URL is
left untouched. -/
def extractScheme (l : List Char) : List Char × List Char :=
  match splitAtFirst ':' l with
  | none => ([], l)
  | some (pre, post) =>
    if pre ≠ [] ∧ (pre.headD ' ').isAlpha ∧ pre.all isSchemeChar then
      (lowerL pre, post)
    else ([], l)

/-- A netloc character is anything up to the first `/`, `?` or `#`
(`_splitnetloc` in CPython). -/
def isNetlocChar (c : Char) : Bool := ¬ (c = '/' ∨ c = '?' ∨ c = '#')

/-- Netloc extraction: only when the remainder starts with `//`
(CPython: `if url[:2] == '//'` followed by `_splitnetloc(url, 2)`). -/
def splitNetloc (l : List Char) : List Char × List Char :=
  if l.take 2 = ['/', '/'] then
    ((l.drop 2).takeWhile isNetlocChar, (l.drop 2).dropWhile isNetlocChar)
  else ([], l)

/-- CPython's IPv6 bracket validity check on the netloc; failure raises
`ValueError("Invalid IPv6 URL")`. -/
def bracketsOk (netloc : List Char) : Bool :=
  ¬ (('[' ∈ netloc ∧ ']' ∉ netloc) ∨ (']' ∈ netloc ∧ '[' ∉ netloc))

/-- Fragment split: everything after the first `#`. -/
def splitFragment (l : List Char) : List Char × List Char :=
  match splitAtFirst '#' l with
  | none => (l, [])
  | some p => p

/-- Query split: everything after the first `?` (applied after the
fragment has been removed). -/
def splitQuery (l : List Char) : List Char × List Char :=
  match splitAtFirst '?' l with
  | none => (l, [])
  | some p => p

/-- `_splitparams`: split the path at the first `;` occurring in its last
segment (after the last `/`); only invoked when a `;` is present. -/
def splitParamsAux (seg : List Char) : List Char × List Char :=
  match splitAtFirst ';' seg with
  | none => (seg, [])
  | some p => p

/-- Split a path into (everything up to and including the last `/`,
the last segment). -/
def lastSegSplit (l : List Char) : List Char × List Char :=
  match splitAtFirst '/' l.reverse with
  | none => ([], l)
  | some (revSeg, revInit) => (('/' :: revInit).reverse, revSeg.reverse)

/-- Model of `urlparse`'s params handling on the path component. -/
def splitParams (path : List Char) : List Char × List Char :=
  if ';' ∈ path then
    if '/' ∈ path then
      let isp := lastSegSplit path
      let sp := splitParamsAux isp.2
      (isp.1 ++ sp.1, sp.2)
    else splitParamsAux path
  else (path, [])

/-- The six components of a parsed URL (`urlparse` result). -/
structure UrlParts where
  scheme : List Char
  netloc : List Char
  path : List Char
  params : List Char
  query : List Char
  fragment : List Char
deriving Repr, DecidableEq

/-- Embedding of `urllib.parse.urlparse`; `none` models the `ValueError`
raised on an invalid bracketed netloc. -/
def pyUrlparse (l : List Char) : Option UrlParts :=
  let l := removeUnsafe l
  let sp := extractScheme l
  let np := splitNetloc sp.2
  if bracketsOk np.1 then
    let fp := splitFragment np.2
    let qp := splitQuery fp.1
    let pp := splitParams qp.1
    some ⟨sp.1, np.1, pp.1, pp.2, qp.2, fp.2⟩
  else none

/-- The canonical string of `LinkManager._hash_url`:
`f"{scheme}://{netloc}{path}"` plus `f"?{query}"` when the query is
nonempty. -/
def renderNorm (p : UrlParts) : List Char :=
  p.scheme ++ (':' :: '/' :: '/' :: p.netloc) ++ p.path ++
    (if p.query ≠ [] then '?' :: p.query else [])

/-- `LinkManager._hash_url` on character lists: lower-case, strip, parse,
reconstruct the canonical string.  `none` models the uncaught
`ValueError` from `urlparse`; the md5 digest is modelled as the canonical
string itself (an injective stand-in for a collision-free digest). -/
def hashUrlL (url : List Char) : Option (List Char) :=
  (pyUrlparse (stripL (lowerL url))).map renderNorm

/-- `LinkManager._hash_url` on strings. -/
def hashUrl (url : String) : Option String :=
  (hashUrlL url.toList).map List.asString

/-- `LinkManager._extract_domain`: `urlparse(url).netloc.lower()`, with
the `try/except` fallback to `"unknown"`. -/
def extractDomain (url : String) : String :=
  match pyUrlparse url.toList with
  | some p => (lowerL p.netloc).asString
  | none => "unknown"

theorem splitAtFirst_length {c : Char} {l : List Char} {p : List Char × List Char}
    (h : splitAtFirst c l = some p) : p.1.length + p.2.length + 1 = l.length := by
  induction l generalizing p with
  | nil => simp [splitAtFirst] at h
  | cons x xs ih =>
    by_cases hx : x = c
    · simp only [splitAtFirst, if_pos hx, Option.some.injEq] at h
      subst h
      simp
    · simp only [splitAtFirst, if_neg hx, Option.map_eq_some'] at h
      obtain ⟨q, hq, hp⟩ := h
      have := ih hq
      subst hp
      simp only [List.length_cons]
      omega

/-- Membership test of a bracket set body, with `a-b` ranges
(model of the character-class part of `fnmatch.translate`). -/
def inBracketSet (c : Char) : List Char → Bool
  | a :: '-' :: b :: rest => (a ≤ c ∧ c ≤ b) ∨ inBracketSet c rest
  | a :: rest => a = c ∨ inBracketSet c rest
  | [] => false

/-- One bracket expression holds of `c`. -/
def bracketHolds (neg : Bool) (body : List Char) (c : Char) : Bool :=
  if neg then ¬ inBracketSet c body else inBracketSet c body

/-- Consume a bracket expression after `[`: returns the negation flag,
the set body and the remaining pattern, or `none` when no closing `]`
exists (in which case `[` is a literal, as in `fnmatch.translate`).
A `]` directly after `[` or `[!` is part of the body. -/
def readBracket (l : List Char) : Option (Bool × List Char × List Char) :=
  match l with
  | '!' :: ']' :: rest => (splitAtFirst ']' rest).map (fun p => (true, ']' :: p.1, p.2))
  | '!' :: rest => (splitAtFirst ']' rest).map (fun p => (true, p.1, p.2))
  | ']' :: rest => (splitAtFirst ']' rest).map (fun p => (false, ']' :: p.1, p.2))
  | rest => (splitAtFirst ']' rest).map (fun p => (false, p.1, p.2))

theorem readBracket_length {l : List Char} {r : Bool × List Char × List Char}
    (h : readBracket l = some r) : r.2.2.length ≤ l.length := by
  unfold readBracket at h
  split at h <;>
    rw [Option.map_eq_some'] at h <;>
    obtain ⟨q, hq, hr⟩ := h <;>
    have := splitAtFirst_length hq <;>
    subst hr <;>
    simp_all <;> omega

/-- Glob matching (model of `fnmatch.fnmatch` on POSIX: case-sensitive
matching of `*`, `?` and `[...]`; the source lower-cases both arguments
itself before calling it). -/
def globMatch : List Char → List Char → Bool
  | [], [] => true
  | [], _ :: _ => false
  | '*' :: ps, s =>
    globMatch ps s ||
      (match s with
       | [] => false
       | _ :: s' => globMatch ('*' :: ps) s')
  | '?' :: ps, _ :: ss => globMatch ps ss
  | '?' :: _, [] => false
  | '[' :: ps, s =>
    (match hrb : readBracket ps, s with
     | some (neg, body, rest), c :: ss => bracketHolds neg body c && globMatch rest ss
     | some _, [] => false
     | none, c :: ss => ('[' == c) && globMatch ps ss
     | none, [] => false)
  | p :: ps, c :: ss => (p == c) && globMatch ps ss
  | _ :: _, [] => false
termination_by p s => p.length + s.length
decreasing_by
  all_goals simp_wf
  all_goals try omega
  have h := readBracket_length hrb
  simp at h
  omega

/-- The configuration attributes read by the core, with the defaults the
source supplies to `getattr` (an attribute absent from the config object
yields the `getattr` default, so it is modelled as a field holding that
default). -/
structure Config where
  DOMAIN_BLACKLIST : List String := []
  URL_PATTERN_BLACKLIST : List String := []
  AUTO_BLACKLIST_ENABLED : Bool := false
  AUTO_BLACKLIST_DAYS : Int := 30
  RECENT_LINK_DAYS : Int := 3
deriving Repr, DecidableEq

/-- `getattr(self.config, 'RECENT_LINK_DAYS', 3)`: a `None` config has no
attributes, so the default applies. -/
def cfgRecentLinkDays : Option Config → Int
  | none => 3
  | some c => c.RECENT_LINK_DAYS

/-- `self.config and getattr(self.config, 'AUTO_BLACKLIST_ENABLED', False)`. -/
def cfgAutoEnabled : Option Config → Bool
  | none => false
  | some c => c.AUTO_BLACKLIST_ENABLED

/-- `getattr(self.config, 'AUTO_BLACKLIST_DAYS', 30)`. -/
def cfgAutoDays : Option Config → Int
  | none => 30
  | some c => c.AUTO_BLACKLIST_DAYS

/-- `LinkManager._should_auto_blacklist_url`: `None` config yields no
auto-blacklist; otherwise the exact-match domain list is consulted and
then the glob patterns, each matched on the lower-cased URL and
lower-cased pattern, returning `pattern_match: <pattern>` with the
pattern in its original case. -/
def shouldAutoBlacklistUrl (cfg : Option Config) (url : String) : Option String :=
  match cfg with
  | none => none
  | some c =>
    let domain := extractDomain url
    if c.DOMAIN_BLACKLIST.contains domain then some "domain_blacklisted"
    else
      match c.URL_PATTERN_BLACKLIST.find?
          (fun pat => globMatch (lowerL pat.toList) (lowerL url.toList)) with
      | some pat => some ("pattern_match: " ++ pat)
      | none => none

/-- The content of a SQLite `DATE` cell written as TEXT: either a string
in date format (represented by the date's ordinal day number, since
ISO-8601 text order coincides with date order) or a string that
`datetime.strptime(s, "%Y-%m-%d")` rejects.  `junk ""` is the empty
string, which is falsy in Python. -/
inductive DateStr where
  | d (v : Int)
  | junk (s : String)
deriving Repr, DecidableEq

/-- `datetime.strptime(s, "%Y-%m-%d").date()`: succeeds exactly on date
strings. -/
def parseDateStr : DateStr → Option Int
  | .d v => some v
  | .junk _ => none

/-- Python truthiness of the cell value (`if last_seen_str:`):
`None` and `""` are falsy. -/
def dateStrTruthy : Option DateStr → Bool
  | none => false
  | some (.junk s) => ¬ s.isEmpty
  | some (.d _) => true

/-- One row of the `links` table (schema in `_init_database`). -/
structure LinkRow where
  id : Nat
  url : String
  title : Option String := none
  domain : String
  first_seen : Int
  last_seen : Option DateStr
  seen_count : Int
  is_blacklisted : Bool
  blacklisted_date : Option Int
  blacklist_reason : Option String
  url_hash : String
deriving Repr, DecidableEq

/-- One row of the `newsletter_runs` table. -/
structure RunRow where
  id : Nat
  run_date : Int
  run_time : Int
  newsletter_hash : Option String
  links_found : Int := 0
  new_links : Int := 0
  existing_links : Int := 0
  blacklisted_links : Int := 0
  opened_links : Int := 0
  success : Bool := true
  notes : Option String := none
deriving Repr, DecidableEq

/-- One row of the `link_appearances` table. -/
structure AppearanceRow where
  id : Nat
  link_id : Nat
  run_id : Nat
  position : Option Int
deriving Repr, DecidableEq

/-- The SQLite database: the three relations plus the AUTOINCREMENT
counters. -/
structure Store where
  links : List LinkRow := []
  runs : List RunRow := []
  appearances : List AppearanceRow := []
  nextLinkId : Nat := 1
  nextRunId : Nat := 1
  nextAppId : Nat := 1
deriving Repr, DecidableEq

/-- `SELECT ... FROM links WHERE url_hash = ?` with `fetchone()`:
the first matching row. -/
def findLinkByHash (s : Store) (h : String) : Option LinkRow :=
  s.links.find? (fun r => r.url_hash == h)

/-- `UPDATE links SET ... WHERE id = ?`. -/
def updateLinkById (s : Store) (i : Nat) (f : LinkRow → LinkRow) : Store :=
  { s with links := s.links.map (fun r => if r.id = i then f r else r) }

/-- `UPDATE links SET ... WHERE url_hash = ?`; also returns
`cursor.rowcount`, the number of matched rows. -/
def updateLinksByHash (s : Store) (h : String) (f : LinkRow → LinkRow) : Nat × Store :=
  (s.links.countP (fun r => r.url_hash == h),
   { s with links := s.links.map (fun r => if r.url_hash == h then f r else r) })

/-- `UPDATE links SET ... WHERE <pred>`; also returns `cursor.rowcount`. -/
def updateLinksWhere (s : Store) (p : LinkRow → Bool) (f : LinkRow → LinkRow) : Nat × Store :=
  (s.links.countP p,
   { s with links := s.links.map (fun r => if p r then f r else r) })

/-- `INSERT INTO links ...`; returns `cursor.lastrowid` and the new
store. -/
def insertLink (s : Store) (r : Nat → LinkRow) : Nat × Store :=
  (s.nextLinkId,
   { s with links := s.links ++ [r s.nextLinkId], nextLinkId := s.nextLinkId + 1 })

/-- `INSERT INTO newsletter_runs ...`; returns `cursor.lastrowid`. -/
def insertRun (s : Store) (r : Nat → RunRow) : Nat × Store :=
  (s.nextRunId,
   { s with runs := s.runs ++ [r s.nextRunId], nextRunId := s.nextRunId + 1 })

/-- `INSERT OR IGNORE INTO link_appearances (link_id, run_id, position)`:
ignored when a row with the same `(link_id, run_id)` already exists
(the table's UNIQUE constraint). -/
def insertAppearanceOrIgnore (s : Store) (lid rid : Nat) (pos : Int) : Store :=
  if s.appearances.any (fun a => a.link_id == lid && a.run_id == rid) then s
  else
    { s with
      appearances := s.appearances ++ [⟨s.nextAppId, lid, rid, some pos⟩],
      nextAppId := s.nextAppId + 1 }

/-- The `WHERE last_seen < ?` comparison of the auto-ager.  SQLite
compares the TEXT cell with the bound ISO date string; for date-format
cells this is exactly date order.  A NULL cell compares to NULL (not
selected).  The collation of a junk (non-date) string against a date
string depends on its text and is not exercised by any verified
property; it is modelled as not selected. -/
def lastSeenLt (v : Option DateStr) (cutoff : Int) : Bool :=
  match v with
  | some (.d x) => x < cutoff
  | some (.junk _) => false
  | none => false

/-- `LinkManager._auto_blacklist_old_links`: when enabled, every
non-blacklisted link whose `last_seen` is before `today - AUTO_BLACKLIST_DAYS`
gets `is_blacklisted=TRUE, blacklisted_date=today,
blacklist_reason='auto_aged'`.  Returns `cursor.rowcount`. -/
def autoBlacklistOldLinks (cfg : Option Config) (today : Int) (s : Store) : Nat × Store :=
  if cfgAutoEnabled cfg then
    let cutoff := today - cfgAutoDays cfg
    updateLinksWhere s
      (fun r => lastSeenLt r.last_seen cutoff && !r.is_blacklisted)
      (fun r =>
        { r with
          is_blacklisted := true
          blacklisted_date := some today
          blacklist_reason := some "auto_aged" })
  else (0, s)

/-- The result dictionary of `analyze_newsletter_links`
(`statistics` flattened into fields). -/
structure AnalyzeResult where
  new_links : List String := []
  existing_links : List String := []
  blacklisted_links : List String := []
  links_to_open : List String := []
  total_links : Int := 0
  new_count : Int := 0
  existing_count : Int := 0
  blacklisted_count : Int := 0
deriving Repr, DecidableEq

/-- One iteration of the loop in `analyze_newsletter_links`.  The store
is threaded through untouched because every statement the source issues
inside the loop is a `SELECT`; a URL on which `_hash_url` raises is
logged and skipped by the `except` clause. -/
def analyzeOne (cfg : Option Config) (today : Int) (url : String)
    (st : AnalyzeResult × Store) : AnalyzeResult × Store :=
  let acc := st.1
  let s := st.2
  match hashUrl url with
  | none => (acc, s)
  | some h =>
    match shouldAutoBlacklistUrl cfg url with
    | some _ =>
      ({ acc with
         blacklisted_links := acc.blacklisted_links ++ [url]
         blacklisted_count := acc.blacklisted_count + 1 }, s)
    | none =>
      match findLinkByHash s h with
      | none =>
        ({ acc with
           new_links := acc.new_links ++ [url]
           new_count := acc.new_count + 1
           links_to_open := acc.links_to_open ++ [url] }, s)
      | some row =>
        if row.is_blacklisted then
          ({ acc with
             blacklisted_links := acc.blacklisted_links ++ [url]
             blacklisted_count := acc.blacklisted_count + 1 }, s)
        else
          if dateStrTruthy row.last_seen then
            match row.last_seen.bind parseDateStr with
            | some lastSeen =>
              if today - lastSeen ≤ cfgRecentLinkDays cfg then
                ({ acc with
                   blacklisted_links := acc.blacklisted_links ++ [url]
                   blacklisted_count := acc.blacklisted_count + 1 }, s)
              else
                ({ acc with
                   existing_links := acc.existing_links ++ [url]
                   existing_count := acc.existing_count + 1
                   links_to_open := acc.links_to_open ++ [url] }, s)
            | none =>
              ({ acc with
                 existing_links := acc.existing_links ++ [url]
                 existing_count := acc.existing_count + 1
                 links_to_open := acc.links_to_open ++ [url] }, s)
          else
            ({ acc with
               existing_links := acc.existing_links ++ [url]
               existing_count := acc.existing_count + 1
               links_to_open := acc.links_to_open ++ [url] }, s)

/-- `LinkManager.analyze_newsletter_links`: classifies a batch of URLs
against the store without storing them. -/
def analyzeNewsletterLinks (cfg : Option Config) (today : Int)
    (links : List String) (s : Store) : AnalyzeResult × Store :=
  if links.isEmpty then ({}, s)
  else links.foldl (fun st url => analyzeOne cfg today url st)
    ({ total_links := links.length }, s)

/-- The result dictionary of `record_opened_links`; for an empty batch
the source returns only `recorded_count`, so the aged count is optional. -/
structure RecordResult where
  recorded_count : Nat
  auto_blacklisted_aged : Option Nat
deriving Repr, DecidableEq

/-- One iteration of the loop in `record_opened_links`: upsert the link
by hash, insert its appearance for this run, and count it; a URL on
which `_hash_url` raises is logged and skipped. -/
def recordOne (today : Int) (rid : Nat) (st : Nat × Store)
    (pu : Nat × String) : Nat × Store :=
  let cnt := st.1
  let s := st.2
  let pos : Int := pu.1 + 1
  let url := pu.2
  match hashUrl url with
  | none => (cnt, s)
  | some h =>
    let domain := extractDomain url
    match findLinkByHash s h with
    | some row =>
      let s₁ := updateLinkById s row.id (fun r =>
        { r with last_seen := some (.d today), seen_count := r.seen_count + 1 })
      (cnt + 1, insertAppearanceOrIgnore s₁ row.id rid pos)
    | none =>
      let ins := insertLink s (fun i =>
        { id := i
          url := url
          domain := domain
          first_seen := today
          last_seen := some (.d today)
          seen_count := 1
          is_blacklisted := false
          blacklisted_date := none
          blacklist_reason := none
          url_hash := h })
      (cnt + 1, insertAppearanceOrIgnore ins.2 ins.1 rid pos)

/-- `LinkManager.record_opened_links`: runs the auto-ager, inserts the
run row, then upserts each opened URL with its 1-based position. -/
def recordOpenedLinks (cfg : Option Config) (today now : Int)
    (links : List String) (newsletterHash : Option String) (s : Store) :
    RecordResult × Store :=
  if links.isEmpty then (⟨0, none⟩, s)
  else
    let ab := autoBlacklistOldLinks cfg today s
    let ir := insertRun ab.2 (fun i =>
      { id := i
        run_date := today
        run_time := now
        newsletter_hash := newsletterHash
        links_found := links.length
        opened_links := links.length
        success := true })
    let fl := links.enum.foldl (recordOne today ir.1) (0, ir.2)
    (⟨fl.1, some ab.1⟩, fl.2)

/-- `LinkManager.blacklist_url`: sets the blacklist fields for the row
matching the hash; `none` models the `ValueError` `_hash_url` may raise
(uncaught here); the boolean is `cursor.rowcount > 0`. -/
def blacklistUrl (today : Int) (url reason : String) (s : Store) :
    Option (Bool × Store) :=
  (hashUrl url).map (fun h =>
    let us := updateLinksByHash s h (fun r =>
      { r with
        is_blacklisted := true
        blacklisted_date := some today
        blacklist_reason := some reason })
    (us.1 > 0, us.2))

/-- `LinkManager.unblacklist_url`: clears the blacklist fields. -/
def unblacklistUrl (url : String) (s : Store) : Option (Bool × Store) :=
  (hashUrl url).map (fun h =>
    let us := updateLinksByHash s h (fun r =>
      { r with
        is_blacklisted := false
        blacklisted_date := none
        blacklist_reason := none })
    (us.1 > 0, us.2))

/-- `blacklisted_date >= ?` on a nullable TEXT date column: NULL is never
selected; date-format cells compare in date order (equal to ISO text
order). -/
def dateGe (v : Option Int) (cutoff : Int) : Bool :=
  match v with
  | some x => cutoff ≤ x
  | none => false

/-- The cutoff predicate shared by `preview_rewind`, `perform_rewind` and
`list_recent_blacklists`: `is_blacklisted = TRUE AND blacklisted_date >= cutoff`. -/
def rewindPred (cutoff : Int) (r : LinkRow) : Bool :=
  r.is_blacklisted && dateGe r.blacklisted_date cutoff

/-- One restore candidate as reported by `preview_rewind`
(`reason` defaults to `'not specified'` for a NULL column). -/
structure RestoreCandidate where
  url : String
  blacklisted_date : Option Int
  reason : String
  domain : String
  seen_count : Int
deriving Repr, DecidableEq

/-- Build the preview candidate from a row. -/
def toCandidate (r : LinkRow) : RestoreCandidate :=
  ⟨r.url, r.blacklisted_date, r.blacklist_reason.getD "not specified",
   r.domain, r.seen_count⟩

/-- `counts[key] = counts.get(key, 0) + 1` on a Python dict, modelled as
an insertion-ordered association list. -/
def bumpCount (m : List (String × Nat)) (k : String) : List (String × Nat) :=
  if m.any (fun p => p.1 == k) then
    m.map (fun p => if p.1 == k then (p.1, p.2 + 1) else p)
  else m ++ [(k, 1)]

/-- `ORDER BY blacklisted_date DESC` on the selected rows (all of which
have a non-NULL date, since NULL fails the `>=` filter); modelled as a
sort, exact up to the unspecified tie order of SQLite. -/
def sortByDateDesc (l : List LinkRow) : List LinkRow :=
  l.insertionSort (fun a b => b.blacklisted_date.getD 0 ≤ a.blacklisted_date.getD 0)

/-- The result of `BlacklistRewind.preview_rewind`. -/
structure PreviewResult where
  cutoff_date : Int
  days_back : Int
  links_to_restore : List RestoreCandidate
  restore_count : Nat
  reason_breakdown : List (String × Nat)
  domain_breakdown : List (String × Nat)
deriving Repr, DecidableEq

/-- `BlacklistRewind.preview_rewind`: read-only selection of the rows
the cutoff predicate matches, plus breakdowns by reason and domain. -/
def previewRewind (today : Int) (days : Int) (s : Store) : PreviewResult :=
  let cutoff := today - days
  let cands := (sortByDateDesc (s.links.filter (rewindPred cutoff))).map toCandidate
  { cutoff_date := cutoff
    days_back := days
    links_to_restore := cands
    restore_count := cands.length
    reason_breakdown := cands.foldl (fun m c => bumpCount m c.reason) []
    domain_breakdown := cands.foldl (fun m c => bumpCount m c.domain) [] }

/-- One serialized entry of a blacklist snapshot file. -/
structure BackupEntry where
  url : String
  blacklisted_date : Option Int
  blacklist_reason : Option String
  domain : String
  first_seen : Int
  last_seen : Option DateStr
  seen_count : Int
  url_hash : String
deriving Repr, DecidableEq

/-- A snapshot file: header count plus the serialized blacklisted rows
(`backup_date` and `database_path` are metadata without semantic
content here). -/
structure Backup where
  total_blacklisted : Nat
  blacklisted_links : List BackupEntry
deriving Repr, DecidableEq

/-- Serialize one blacklisted row. -/
def toBackupEntry (r : LinkRow) : BackupEntry :=
  ⟨r.url, r.blacklisted_date, r.blacklist_reason, r.domain, r.first_seen,
   r.last_seen, r.seen_count, r.url_hash⟩

/-- `BlacklistRewind.create_backup`: snapshot of all currently
blacklisted links. -/
def createBackup (s : Store) : Backup :=
  let entries := (s.links.filter (fun r => r.is_blacklisted)).map toBackupEntry
  ⟨entries.length, entries⟩

/-- A reported restored link of `perform_rewind` (`url`,
`blacklisted_date`, raw `reason`). -/
structure RestoredLink where
  url : String
  blacklisted_date : Option Int
  reason : Option String
deriving Repr, DecidableEq

/-- The result of `BlacklistRewind.perform_rewind`. -/
structure RewindResult where
  success : Bool
  cutoff_date : Int
  days_rewound : Int
  restored_count : Nat
  restored_links : List RestoredLink
  backup_file : Option Backup
deriving Repr, DecidableEq

/-- Clear the three blacklist fields of a row (the `SET` clause of the
rewind UPDATE). -/
def clearBlacklist (r : LinkRow) : LinkRow :=
  { r with
    is_blacklisted := false
    blacklisted_date := none
    blacklist_reason := none }

/-- `BlacklistRewind.perform_rewind`: optional backup, then clears the
blacklist fields of exactly the rows the cutoff predicate matches. -/
def performRewind (today : Int) (days : Int) (withBackup : Bool) (s : Store) :
    RewindResult × Store :=
  let backup := if withBackup then some (createBackup s) else none
  let cutoff := today - days
  let restored := (s.links.filter (rewindPred cutoff)).map
    (fun r => RestoredLink.mk r.url r.blacklisted_date r.blacklist_reason)
  let us := updateLinksWhere s (rewindPred cutoff) clearBlacklist
  ({ success := true
     cutoff_date := cutoff
     days_rewound := days
     restored_count := us.1
     restored_links := restored
     backup_file := backup }, us.2)

/-- The result of `BlacklistRewind.restore_from_backup`. -/
structure RestoreResult where
  success : Bool
  restored_count : Nat
  total_in_backup : Nat
deriving Repr, DecidableEq

/-- The `SET` clause of the restore UPDATE: re-apply the snapshot
entry's blacklist fields. -/
def applyBackupEntry (e : BackupEntry) (r : LinkRow) : LinkRow :=
  { r with
    is_blacklisted := true
    blacklisted_date := e.blacklisted_date
    blacklist_reason := e.blacklist_reason }

/-- One iteration of the restore loop: re-apply a snapshot entry by
hash; the entry is counted when `cursor.rowcount > 0`. -/
def restoreOne (st : Nat × Store) (e : BackupEntry) : Nat × Store :=
  let us := updateLinksByHash st.2 e.url_hash (applyBackupEntry e)
  (if us.1 > 0 then st.1 + 1 else st.1, us.2)

/-- `BlacklistRewind.restore_from_backup`: best-effort merge of a
snapshot back into the store, by hash. -/
def restoreFromBackup (b : Backup) (s : Store) : RestoreResult × Store :=
  let fl := b.blacklisted_links.foldl restoreOne (0, s)
  (⟨true, fl.1, b.blacklisted_links.length⟩, fl.2)

/-! ## Shared lemmas -/

theorem analyzeOne_store (cfg : Option Config) (today : Int) (url : String)
    (st : AnalyzeResult × Store) : (analyzeOne cfg today url st).2 = st.2 := by
  unfold analyzeOne
  rcases hashUrl url with _ | h
  · rfl
  · simp only
    rcases shouldAutoBlacklistUrl cfg url with _ | p
    · simp only
      rcases findLinkByHash st.2 h with _ | row
      · rfl
      · simp only
        split
        · rfl
        · split
          · rcases row.last_seen.bind parseDateStr with _ | d
            · rfl
            · simp only
              split <;> rfl
          · rfl
    · rfl

theorem analyze_foldl_store (cfg : Option Config) (today : Int)
    (links : List String) (init : AnalyzeResult × Store) :
    (links.foldl (fun st url => analyzeOne cfg today url st) init).2 = init.2 := by
  induction links generalizing init with
  | nil => rfl
  | cons u us ih =>
    simp only [List.foldl_cons]
    rw [ih]
    exact analyzeOne_store cfg today u init

end NeuronAuto

namespace NeuronAuto

/-! ## C1: the admission analyzer never mutates the store -/

/-- C1: for every configuration, date, input URL list and store state,
`analyze_newsletter_links` leaves the store completely unchanged: the
resulting store (all three relations, every row, every field, and the
AUTOINCREMENT counters) is equal to the input store. -/
theorem analyze_never_mutates_store (cfg : Option Config) (today : Int)
    (links : List String) (s : Store) :
    (analyzeNewsletterLinks cfg today links s).2 = s := by
  unfold analyzeNewsletterLinks
  split
  · rfl
  · exact analyze_foldl_store cfg today links _

/-! ## C6: in-batch duplicates in the analyzer -/

/-- Pointwise combination of analyzer results: lists concatenated,
counters added. -/
def AnalyzeResult.app (a b : AnalyzeResult) : AnalyzeResult where
  new_links := a.new_links ++ b.new_links
  existing_links := a.existing_links ++ b.existing_links
  blacklisted_links := a.blacklisted_links ++ b.blacklisted_links
  links_to_open := a.links_to_open ++ b.links_to_open
  total_links := a.total_links + b.total_links
  new_count := a.new_count + b.new_count
  existing_count := a.existing_count + b.existing_count
  blacklisted_count := a.blacklisted_count + b.blacklisted_count

theorem analyzeOne_delta (cfg : Option Config) (today : Int) (url : String)
    (acc : AnalyzeResult) (s : Store) :
    analyzeOne cfg today url (acc, s) =
      (acc.app (analyzeOne cfg today url ({}, s)).1, s) := by
  unfold analyzeOne
  rcases hashUrl url with _ | h
  · simp [AnalyzeResult.app]
  · simp only
    rcases shouldAutoBlacklistUrl cfg url with _ | p
    · simp only
      rcases findLinkByHash s h with _ | row
      · simp [AnalyzeResult.app]
      · simp only
        split
        · simp [AnalyzeResult.app]
        · split
          · rcases row.last_seen.bind parseDateStr with _ | d
            · simp [AnalyzeResult.app]
            · simp only
              split <;> simp [AnalyzeResult.app]
          · simp [AnalyzeResult.app]
    · simp [AnalyzeResult.app]

/-- C6 counterexample: on an empty store, analyzing a batch that contains
the same URL twice reports the URL twice in `links_to_open` (and in
`new_links`) and counts it twice — the analyzer performs no in-batch
deduplication, so it is not the case that only the first occurrence
appears and that the identity is counted once. -/
theorem analyzer_inbatch_dedup_refuted :
    ((analyzeNewsletterLinks none 0 ["http://a.com/x", "http://a.com/x"] {}).1.links_to_open
        = ["http://a.com/x", "http://a.com/x"]
      ∧ (analyzeNewsletterLinks none 0 ["http://a.com/x", "http://a.com/x"] {}).1.new_count = 2)
    ∧ ¬ ((analyzeNewsletterLinks none 0
          ["http://a.com/x", "http://a.com/x"] {}).1.links_to_open = ["http://a.com/x"]
        ∧ (analyzeNewsletterLinks none 0
          ["http://a.com/x", "http://a.com/x"] {}).1.new_count = 1) := by
  refine ⟨⟨by rfl, by rfl⟩, ?_⟩
  intro hcl
  have h2 : (analyzeNewsletterLinks none 0
      ["http://a.com/x", "http://a.com/x"] {}).1.new_count = 2 := by rfl
  rw [hcl.2] at h2
  exact absurd h2 (by decide)

/-- C6 amended: the analyzer does not deduplicate a batch; every
occurrence of a URL is classified independently against the (unchanged)
store, so a URL appearing twice contributes its classification twice:
the result on `[u, u]` has each category list doubled and each category
counter doubled relative to the result on `[u]`. -/
theorem analyzeOne_delta_st (cfg : Option Config) (today : Int) (url : String)
    (st : AnalyzeResult × Store) :
    analyzeOne cfg today url st =
      (st.1.app (analyzeOne cfg today url ({}, st.2)).1, st.2) := by
  have h := analyzeOne_delta cfg today url st.1 st.2
  exact h

theorem analyzer_processes_each_occurrence (cfg : Option Config) (today : Int)
    (u : String) (s : Store) :
    ((analyzeNewsletterLinks cfg today [u, u] s).1.new_links
        = (analyzeNewsletterLinks cfg today [u] s).1.new_links
          ++ (analyzeNewsletterLinks cfg today [u] s).1.new_links)
    ∧ ((analyzeNewsletterLinks cfg today [u, u] s).1.existing_links
        = (analyzeNewsletterLinks cfg today [u] s).1.existing_links
          ++ (analyzeNewsletterLinks cfg today [u] s).1.existing_links)
    ∧ ((analyzeNewsletterLinks cfg today [u, u] s).1.blacklisted_links
        = (analyzeNewsletterLinks cfg today [u] s).1.blacklisted_links
          ++ (analyzeNewsletterLinks cfg today [u] s).1.blacklisted_links)
    ∧ ((analyzeNewsletterLinks cfg today [u, u] s).1.links_to_open
        = (analyzeNewsletterLinks cfg today [u] s).1.links_to_open
          ++ (analyzeNewsletterLinks cfg today [u] s).1.links_to_open)
    ∧ ((analyzeNewsletterLinks cfg today [u, u] s).1.new_count
        = 2 * (analyzeNewsletterLinks cfg today [u] s).1.new_count)
    ∧ ((analyzeNewsletterLinks cfg today [u, u] s).1.existing_count
        = 2 * (analyzeNewsletterLinks cfg today [u] s).1.existing_count)
    ∧ ((analyzeNewsletterLinks cfg today [u, u] s).1.blacklisted_count
        = 2 * (analyzeNewsletterLinks cfg today [u] s).1.blacklisted_count) := by
  have h1 : analyzeNewsletterLinks cfg today [u] s
      = (AnalyzeResult.app { total_links := ([u] : List String).length }
          (analyzeOne cfg today u ({}, s)).1, s) := by
    unfold analyzeNewsletterLinks
    simp only [List.isEmpty_cons, Bool.false_eq_true, if_false, List.foldl_cons,
      List.foldl_nil]
    exact analyzeOne_delta cfg today u _ s
  have h2 : analyzeNewsletterLinks cfg today [u, u] s
      = (AnalyzeResult.app (AnalyzeResult.app
            { total_links := ([u, u] : List String).length }
            (analyzeOne cfg today u ({}, s)).1)
          (analyzeOne cfg today u ({}, s)).1, s) := by
    unfold analyzeNewsletterLinks
    simp only [List.isEmpty_cons, Bool.false_eq_true, if_false, List.foldl_cons,
      List.foldl_nil]
    rw [analyzeOne_delta_st cfg today u
      (analyzeOne cfg today u ({ total_links := ([u, u] : List String).length }, s)),
      analyzeOne_store, analyzeOne_delta cfg today u _ s]
  rw [h1, h2]
  simp [AnalyzeResult.app, two_mul]

/-! ## C2: rewind exactness -/

/-- A store with four blacklisted links, blacklisted 1, 2, 7 and 14 days
before day 20 (the concrete scenario of the rewind-exactness property). -/
def exampleRewindStore : Store where
  links :=
    [ { id := 1, url := "u1", domain := "a.com", first_seen := 0,
        last_seen := some (.d 0), seen_count := 1, is_blacklisted := true,
        blacklisted_date := some 19, blacklist_reason := some "read",
        url_hash := "h1" },
      { id := 2, url := "u2", domain := "a.com", first_seen := 0,
        last_seen := some (.d 0), seen_count := 1, is_blacklisted := true,
        blacklisted_date := some 18, blacklist_reason := some "read",
        url_hash := "h2" },
      { id := 3, url := "u7", domain := "a.com", first_seen := 0,
        last_seen := some (.d 0), seen_count := 1, is_blacklisted := true,
        blacklisted_date := some 13, blacklist_reason := some "read",
        url_hash := "h7" },
      { id := 4, url := "u14", domain := "a.com", first_seen := 0,
        last_seen := some (.d 0), seen_count := 1, is_blacklisted := true,
        blacklisted_date := some 6, blacklist_reason := some "read",
        url_hash := "h14" } ]
  nextLinkId := 5

/-- C2: `perform_rewind(days)` clears the three blacklist fields of
exactly the links selected by the cutoff predicate
`is_blacklisted AND blacklisted_date >= today - days` (the predicate
`preview_rewind` uses), leaving every other link row unchanged and the
other relations untouched; `preview_rewind` reports exactly the selected
rows; `days = 0` selects only same-day blacklists; and in the concrete
1/2/7/14-days-ago scenario, `preview(7)` reports the 1-, 2- and 7-day
entries and `rewind(7)` leaves exactly the 14-day entry blacklisted. -/
theorem rewind_clears_exactly_cutoff_matches (today days : Int) (cb : Bool)
    (s : Store) (hdays : 0 ≤ days) :
    ((performRewind today days cb s).2.links
        = s.links.map (fun r => if rewindPred (today - days) r then clearBlacklist r else r))
    ∧ ((performRewind today days cb s).2.runs = s.runs)
    ∧ ((performRewind today days cb s).2.appearances = s.appearances)
    ∧ ((performRewind today days cb s).1.restored_count
        = (s.links.filter (rewindPred (today - days))).length)
    ∧ ((previewRewind today days s).restore_count
        = (s.links.filter (rewindPred (today - days))).length)
    ∧ (∀ c, c ∈ (previewRewind today days s).links_to_restore
        ↔ ∃ r ∈ s.links, rewindPred (today - days) r = true ∧ c = toCandidate r)
    ∧ (days = 0 → ∀ r ∈ s.links, (∀ d, r.blacklisted_date = some d → d ≤ today) →
        (rewindPred (today - days) r = true
          ↔ r.is_blacklisted = true ∧ r.blacklisted_date = some today))
    ∧ (((previewRewind 20 7 exampleRewindStore).links_to_restore.map
          (fun c => c.url)) = ["u1", "u2", "u7"])
    ∧ ((previewRewind 20 7 exampleRewindStore).restore_count = 3)
    ∧ (((performRewind 20 7 false exampleRewindStore).2.links.map
          (fun r => (r.url, r.is_blacklisted, r.blacklisted_date, r.blacklist_reason)))
        = [("u1", false, none, none), ("u2", false, none, none),
           ("u7", false, none, none), ("u14", true, some 6, some "read")]) := by
  refine ⟨rfl, rfl, rfl, ?_, ?_, ?_, ?_, by decide, by decide, by decide⟩
  · simp [performRewind, updateLinksWhere, List.countP_eq_length_filter]
  · simp only [previewRewind, List.length_map]
    exact (List.perm_insertionSort _ _).length_eq
  · intro c
    simp only [previewRewind, sortByDateDesc, List.mem_map]
    constructor
    · rintro ⟨r, hr, hc⟩
      have hr' := (List.perm_insertionSort
        (fun a b => b.blacklisted_date.getD 0 ≤ a.blacklisted_date.getD 0)
        (s.links.filter (rewindPred (today - days)))).mem_iff.mp hr
      rw [List.mem_filter] at hr'
      exact ⟨r, hr'.1, hr'.2, hc.symm⟩
    · rintro ⟨r, hr, hp, hc⟩
      refine ⟨r, ?_, hc.symm⟩
      exact (List.perm_insertionSort _ _).mem_iff.mpr
        (List.mem_filter.mpr ⟨hr, hp⟩)
  · rintro rfl r hr hbd
    simp only [sub_zero, rewindPred, dateGe, Bool.and_eq_true]
    rcases hb : r.blacklisted_date with _ | d
    · simp
    · constructor
      · rintro ⟨h1, h2⟩
        have hle := hbd d hb
        simp only [decide_eq_true_eq] at h2
        have hdt : d = today := le_antisymm hle h2
        exact ⟨by simpa using h1, by rw [hdt]⟩
      · rintro ⟨h1, h2⟩
        injection h2 with h2
        subst h2
        exact ⟨by simpa using h1, by simp⟩

/-- C2 witness: the rewind-exactness theorem applied at `today = 20`,
`days = 7` on the concrete 1/2/7/14-days-ago store. -/
theorem rewind_clears_exactly_cutoff_matches_witness :
    (0 : Int) ≤ 7
    ∧ ((performRewind 20 7 false exampleRewindStore).2.links
        = exampleRewindStore.links.map
            (fun r => if rewindPred (20 - 7) r then clearBlacklist r else r)) :=
  ⟨by decide,
   (rewind_clears_exactly_cutoff_matches 20 7 false exampleRewindStore (by decide)).1⟩

/-! ## C10: missing or unparsable last_seen bypasses the throttle -/

theorem analyze_single (cfg : Option Config) (today : Int) (u : String) (s : Store) :
    (analyzeNewsletterLinks cfg today [u] s).1
      = (analyzeOne cfg today u ({ total_links := 1 }, s)).1 := by
  unfold analyzeNewsletterLinks
  norm_num

/-- C10: a URL whose stored row exists, is not blacklisted, and whose
`last_seen` is NULL, empty, or a string `strptime` rejects, is classified
existing and admitted by the analyzer (it lands in `existing_links` and
`links_to_open`, not in `blacklisted_links`): the recent-window throttle
is silently bypassed for such rows. -/
theorem analyzer_admits_unparsable_last_seen
    (cfg : Option Config) (today : Int) (s : Store) (u hsh : String) (row : LinkRow)
    (hhash : hashUrl u = some hsh)
    (hpat : shouldAutoBlacklistUrl cfg u = none)
    (hfind : findLinkByHash s hsh = some row)
    (hbl : row.is_blacklisted = false)
    (hls : row.last_seen = none ∨ ∃ t, row.last_seen = some (.junk t)) :
    (analyzeNewsletterLinks cfg today [u] s).1.existing_links = [u]
    ∧ (analyzeNewsletterLinks cfg today [u] s).1.links_to_open = [u]
    ∧ (analyzeNewsletterLinks cfg today [u] s).1.existing_count = 1
    ∧ (analyzeNewsletterLinks cfg today [u] s).1.blacklisted_links = []
    ∧ (analyzeNewsletterLinks cfg today [u] s).1.new_links = [] := by
  rw [analyze_single]
  unfold analyzeOne
  simp only [hhash, hpat, hfind, hbl]
  rcases hls with hnone | ⟨t, hjunk⟩
  · simp [hnone, dateStrTruthy]
  · by_cases ht : t.isEmpty
    · simp [hjunk, dateStrTruthy, ht]
    · simp [hjunk, dateStrTruthy, ht, parseDateStr]

/-- C10 witness: a concrete single-link store whose row has a junk
`last_seen`; the URL is admitted. -/
theorem analyzer_admits_unparsable_last_seen_witness :
    hashUrl "http://a.com/x" = some "http://a.com/x"
    ∧ (analyzeNewsletterLinks none 20 ["http://a.com/x"]
        { links := [{ id := 1, url := "http://a.com/x", domain := "a.com",
                      first_seen := 0, last_seen := some (.junk "not-a-date"),
                      seen_count := 1, is_blacklisted := false,
                      blacklisted_date := none, blacklist_reason := none,
                      url_hash := "http://a.com/x" }],
          nextLinkId := 2 }).1.links_to_open = ["http://a.com/x"] := by
  refine ⟨by rfl, ?_⟩
  exact (analyzer_admits_unparsable_last_seen none 20 _ "http://a.com/x"
    "http://a.com/x" _ (by rfl) (by rfl) (by rfl) (by rfl)
    (Or.inr ⟨"not-a-date", rfl⟩)).2.1

/-! ## C4: throttle correctness -/

theorem find?_map_of_pred {α : Type} (p : α → Bool) (f : α → α)
    (hf : ∀ x, p (f x) = p x) (l : List α) :
    (l.map f).find? p = (l.find? p).map f := by
  induction l with
  | nil => rfl
  | cons a l ih =>
    cases hpa : p a
    · rw [List.map_cons, List.find?_cons_of_neg _ (by simp [hf, hpa]),
        List.find?_cons_of_neg _ (by simp [hpa])]
      exact ih
    · rw [List.map_cons, List.find?_cons_of_pos _ (by simp [hf, hpa]),
        List.find?_cons_of_pos _ hpa]
      rfl

theorem find?_append_none {α : Type} (p : α → Bool) {l₁ : List α} (l₂ : List α)
    (h : l₁.find? p = none) : (l₁ ++ l₂).find? p = l₂.find? p := by
  induction l₁ with
  | nil => rfl
  | cons a l ih =>
    cases hpa : p a
    · rw [List.find?_cons_of_neg _ (by simp [hpa])] at h
      rw [List.cons_append, List.find?_cons_of_neg _ (by simp [hpa])]
      exact ih h
    · rw [List.find?_cons_of_pos _ hpa] at h
      exact absurd h (by simp)

theorem insertAppearanceOrIgnore_links (s : Store) (lid rid : Nat) (pos : Int) :
    (insertAppearanceOrIgnore s lid rid pos).links = s.links := by
  unfold insertAppearanceOrIgnore
  split <;> rfl

/-- After one `recordOne` step on a URL that hashes, the store holds a row
with that hash whose `last_seen` is today. -/
theorem recordOne_find (today : Int) (rid : Nat) (c : Nat) (s : Store)
    (pos : Nat) (X hsh : String) (hhash : hashUrl X = some hsh) :
    ∃ row, findLinkByHash (recordOne today rid (c, s) (pos, X)).2 hsh = some row
      ∧ row.last_seen = some (.d today) := by
  unfold recordOne
  simp only [hhash]
  cases hf : findLinkByHash s hsh with
  | none =>
    simp only [hf]
    refine ⟨{ id := s.nextLinkId, url := X, domain := extractDomain X,
              first_seen := today, last_seen := some (.d today), seen_count := 1,
              is_blacklisted := false, blacklisted_date := none,
              blacklist_reason := none, url_hash := hsh }, ?_, rfl⟩
    unfold findLinkByHash at hf ⊢
    rw [insertAppearanceOrIgnore_links]
    unfold insertLink
    simp only
    rw [find?_append_none _ _ hf]
    simp [List.find?]
  | some row =>
    simp only [hf]
    refine ⟨{ row with last_seen := some (DateStr.d today), seen_count := row.seen_count + 1 }, ?_, rfl⟩
    unfold findLinkByHash at hf ⊢
    rw [insertAppearanceOrIgnore_links]
    unfold updateLinkById
    simp only
    rw [find?_map_of_pred _ _ (fun x => by split <;> rfl), hf]
    simp

/-- `record_opened_links` on a single URL that hashes leaves a row with
that hash and `last_seen = today`. -/
theorem record_single_find (cfg : Option Config) (today now : Int) (X : String)
    (nh : Option String) (s : Store) (hsh : String)
    (hhash : hashUrl X = some hsh) :
    ∃ row, findLinkByHash (recordOpenedLinks cfg today now [X] nh s).2 hsh = some row
      ∧ row.last_seen = some (.d today) := by
  unfold recordOpenedLinks
  simp only [List.isEmpty_cons, Bool.false_eq_true, if_false, List.enum,
    List.enumFrom, List.foldl_cons, List.foldl_nil]
  exact recordOne_find today _ 0 _ 0 X hsh hhash

/-- C4: with `RECENT_LINK_DAYS = 1`: (a) recording `X` today and analyzing
`[X]` the same day classifies `X` blocked (it lands in
`blacklisted_links`, not in `links_to_open`); (b) if `X`'s stored row is
not blacklisted and its `last_seen` is more than one day in the past,
analyzing `[X]` classifies it existing and admitted; (c) in general, for
any configured window, a non-blacklisted existing link with a parseable
`last_seen` is blocked iff `today - last_seen ≤ RECENT_LINK_DAYS`. -/
theorem throttle_blocks_within_window
    (cfg : Option Config) (today now : Int) (s : Store) (X hsh : String)
    (nh : Option String)
    (hrecent : cfgRecentLinkDays cfg = 1)
    (hhash : hashUrl X = some hsh)
    (hpat : shouldAutoBlacklistUrl cfg X = none) :
    ((analyzeNewsletterLinks cfg today [X]
        (recordOpenedLinks cfg today now [X] nh s).2).1.blacklisted_links = [X]
      ∧ (analyzeNewsletterLinks cfg today [X]
        (recordOpenedLinks cfg today now [X] nh s).2).1.links_to_open = [])
    ∧ (∀ row d, findLinkByHash s hsh = some row → row.is_blacklisted = false →
        row.last_seen = some (.d d) → 1 < today - d →
        (analyzeNewsletterLinks cfg today [X] s).1.existing_links = [X]
        ∧ (analyzeNewsletterLinks cfg today [X] s).1.links_to_open = [X])
    ∧ (∀ (cfg' : Option Config) row d, shouldAutoBlacklistUrl cfg' X = none →
        findLinkByHash s hsh = some row → row.is_blacklisted = false →
        row.last_seen = some (.d d) →
        (((analyzeNewsletterLinks cfg' today [X] s).1.blacklisted_links = [X]
          ∧ (analyzeNewsletterLinks cfg' today [X] s).1.links_to_open = [])
          ↔ today - d ≤ cfgRecentLinkDays cfg')) := by
  refine ⟨?_, ?_, ?_⟩
  · obtain ⟨row, hfind, hls⟩ := record_single_find cfg today now X nh s hsh hhash
    rw [analyze_single]
    unfold analyzeOne
    simp only [hhash, hpat, hfind]
    cases hbl : row.is_blacklisted
    · simp [hbl, hls, dateStrTruthy, parseDateStr, hrecent]
    · simp [hbl]
  · intro row d hfind hbl hls hd
    rw [analyze_single]
    unfold analyzeOne
    simp only [hhash, hpat, hfind, hbl, hls]
    have hgt : ¬ (today - d ≤ cfgRecentLinkDays cfg) := by omega
    simp [dateStrTruthy, parseDateStr, hgt]
  · intro cfg2 row d hpat2 hfind hbl hls
    rw [analyze_single]
    unfold analyzeOne
    simp only [hhash, hpat2, hfind, hbl, hls]
    by_cases hle : today - d ≤ cfgRecentLinkDays cfg2
    · simp [dateStrTruthy, parseDateStr, hle]
    · simp [dateStrTruthy, parseDateStr, hle]

/-- C4 witness: with `RECENT_LINK_DAYS = 1`, recording
`http://a.com/x` on day 20 into an empty store and analyzing it the same
day blocks it. -/
theorem throttle_blocks_within_window_witness :
    cfgRecentLinkDays (some { RECENT_LINK_DAYS := 1 }) = 1
    ∧ hashUrl "http://a.com/x" = some "http://a.com/x"
    ∧ shouldAutoBlacklistUrl (some { RECENT_LINK_DAYS := 1 }) "http://a.com/x" = none
    ∧ (analyzeNewsletterLinks (some { RECENT_LINK_DAYS := 1 }) 20 ["http://a.com/x"]
        (recordOpenedLinks (some { RECENT_LINK_DAYS := 1 }) 20 0
          ["http://a.com/x"] none {}).2).1.blacklisted_links = ["http://a.com/x"] :=
  ⟨by rfl, by rfl, by rfl,
   (throttle_blocks_within_window (some { RECENT_LINK_DAYS := 1 }) 20 0 {}
      "http://a.com/x" "http://a.com/x" none (by rfl) (by rfl) (by rfl)).1.1⟩

/-! ## C9: at most one appearance row per (link_id, run_id) pair -/

/-- The `(link_id, run_id)` UNIQUE constraint as a store invariant. -/
def appearancePairsNodup (s : Store) : Prop :=
  (s.appearances.map (fun a => (a.link_id, a.run_id))).Nodup

theorem insertAppearanceOrIgnore_pairsNodup (s : Store) (lid rid : Nat)
    (pos : Int) (h : appearancePairsNodup s) :
    appearancePairsNodup (insertAppearanceOrIgnore s lid rid pos) := by
  unfold appearancePairsNodup insertAppearanceOrIgnore
  split
  · exact h
  · rename_i hne
    simp only [List.map_append, List.map_cons, List.map_nil]
    rw [List.nodup_append]
    refine ⟨h, List.nodup_singleton _, ?_⟩
    intro x hx hy
    simp only [List.mem_singleton] at hy
    subst hy
    simp only [List.mem_map] at hx
    obtain ⟨a, ha, hax⟩ := hx
    apply hne
    simp only [List.any_eq_true]
    refine ⟨a, ha, ?_⟩
    have h1 : a.link_id = lid := congrArg Prod.fst hax
    have h2 : a.run_id = rid := congrArg Prod.snd hax
    simp [h1, h2]

theorem recordOne_pairsNodup (today : Int) (rid : Nat) (st : Nat × Store)
    (pu : Nat × String) (h : appearancePairsNodup st.2) :
    appearancePairsNodup (recordOne today rid st pu).2 := by
  unfold recordOne
  cases hh : hashUrl pu.2 with
  | none => simp only [hh]; exact h
  | some hsh =>
    simp only [hh]
    cases hf : findLinkByHash st.2 hsh with
    | some row =>
      simp only [hf]
      exact insertAppearanceOrIgnore_pairsNodup _ _ _ _ h
    | none =>
      simp only [hf]
      exact insertAppearanceOrIgnore_pairsNodup _ _ _ _ h

theorem record_foldl_pairsNodup (today : Int) (rid : Nat)
    (pl : List (Nat × String)) : ∀ (st : Nat × Store),
    appearancePairsNodup st.2 →
    appearancePairsNodup (pl.foldl (recordOne today rid) st).2 := by
  induction pl with
  | nil => exact fun st h => h
  | cons pu pl ih =>
    intro st h
    rw [List.foldl_cons]
    exact ih _ (recordOne_pairsNodup today rid st pu h)

theorem autoBlacklist_appearances (cfg : Option Config) (today : Int) (s : Store) :
    (autoBlacklistOldLinks cfg today s).2.appearances = s.appearances := by
  unfold autoBlacklistOldLinks updateLinksWhere
  split <;> rfl

theorem autoBlacklist_runs (cfg : Option Config) (today : Int) (s : Store) :
    (autoBlacklistOldLinks cfg today s).2.runs = s.runs := by
  unfold autoBlacklistOldLinks updateLinksWhere
  split <;> rfl

theorem insertRun_appearances (s : Store) (f : Nat → RunRow) :
    (insertRun s f).2.appearances = s.appearances := rfl

/-- C9: `record_opened_links` preserves the at-most-one-appearance-row-
per-`(link_id, run_id)` invariant (so any sequence of record operations
does); moreover inserting an already-present pair leaves the
`link_appearances` relation entirely unchanged rather than erroring:
duplicate appearance inserts are ignored. -/
theorem appearance_pair_unique_after_record (cfg : Option Config)
    (today now : Int) (links : List String) (nh : Option String) (s : Store)
    (h : appearancePairsNodup s) :
    appearancePairsNodup (recordOpenedLinks cfg today now links nh s).2
    ∧ (∀ (s' : Store) (lid rid : Nat) (pos : Int),
        (s'.appearances.any (fun a => a.link_id == lid && a.run_id == rid)) = true →
        insertAppearanceOrIgnore s' lid rid pos = s') := by
  constructor
  · unfold recordOpenedLinks
    split
    · exact h
    · apply record_foldl_pairsNodup
      unfold appearancePairsNodup
      rw [insertRun_appearances, autoBlacklist_appearances]
      exact h
  · intro s' lid rid pos hdup
    unfold insertAppearanceOrIgnore
    rw [if_pos hdup]

/-- C9 witness: the invariant-preservation theorem applied on the empty
store with a concrete batch. -/
theorem appearance_pair_unique_after_record_witness :
    appearancePairsNodup ({} : Store)
    ∧ appearancePairsNodup
        (recordOpenedLinks none 20 0 ["http://a.com/x", "http://a.com/x"] none {}).2 :=
  ⟨List.nodup_nil,
   (appearance_pair_unique_after_record none 20 0 ["http://a.com/x", "http://a.com/x"]
      none {} List.nodup_nil).1⟩

/-! ## C8: per-item failure isolation in record_opened_links -/

theorem insertAppearanceOrIgnore_runs (s : Store) (lid rid : Nat) (pos : Int) :
    (insertAppearanceOrIgnore s lid rid pos).runs = s.runs := by
  unfold insertAppearanceOrIgnore
  split <;> rfl

theorem insertAppearanceOrIgnore_mem (s : Store) (lid rid : Nat) (pos : Int)
    {a : AppearanceRow} (ha : a ∈ s.appearances) :
    a ∈ (insertAppearanceOrIgnore s lid rid pos).appearances := by
  unfold insertAppearanceOrIgnore
  split
  · exact ha
  · exact List.mem_append_left _ ha

theorem recordOne_runs (today : Int) (rid : Nat) (st : Nat × Store)
    (pu : Nat × String) : (recordOne today rid st pu).2.runs = st.2.runs := by
  unfold recordOne
  cases hh : hashUrl pu.2 with
  | none => simp only [hh]
  | some hsh =>
    simp only [hh]
    cases hf : findLinkByHash st.2 hsh with
    | some row => simp only [hf]; rw [insertAppearanceOrIgnore_runs]; rfl
    | none => simp only [hf]; rw [insertAppearanceOrIgnore_runs]; rfl

theorem record_foldl_runs (today : Int) (rid : Nat) (pl : List (Nat × String)) :
    ∀ (st : Nat × Store), (pl.foldl (recordOne today rid) st).2.runs = st.2.runs := by
  induction pl with
  | nil => exact fun st => rfl
  | cons pu pl ih =>
    intro st
    rw [List.foldl_cons, ih, recordOne_runs]

theorem record_foldl_count (today : Int) (rid : Nat) (pl : List (Nat × String)) :
    ∀ (st : Nat × Store),
    (pl.foldl (recordOne today rid) st).1
      = st.1 + pl.countP (fun pu => (hashUrl pu.2).isSome) := by
  induction pl with
  | nil => intro st; simp
  | cons pu pl ih =>
    intro st
    rw [List.foldl_cons, ih, List.countP_cons]
    unfold recordOne
    cases hh : hashUrl pu.2 with
    | none => simp [hh]
    | some hsh =>
      simp only [hh]
      cases hf : findLinkByHash st.2 hsh <;> simp [hf] <;> omega

/-- A link with the given hash is stored together with an appearance row
tying it to the given run. -/
def storedWithAppearance (s : Store) (hsh : String) (rid : Nat) : Prop :=
  ∃ r, r ∈ s.links ∧ r.url_hash = hsh
    ∧ ∃ a, a ∈ s.appearances ∧ a.link_id = r.id ∧ a.run_id = rid

theorem insertAppearanceOrIgnore_stored (s : Store) (lid rid : Nat) (pos : Int) :
    ∃ a, a ∈ (insertAppearanceOrIgnore s lid rid pos).appearances
      ∧ a.link_id = lid ∧ a.run_id = rid := by
  unfold insertAppearanceOrIgnore
  split
  · rename_i hdup
    rw [List.any_eq_true] at hdup
    obtain ⟨a, ha, hab⟩ := hdup
    rw [Bool.and_eq_true, beq_iff_eq, beq_iff_eq] at hab
    exact ⟨a, ha, hab.1, hab.2⟩
  · exact ⟨_, List.mem_append_right _ (List.mem_singleton_self _), rfl, rfl⟩

theorem recordOne_establishes (today : Int) (rid : Nat) (st : Nat × Store)
    (pu : Nat × String) (hsh : String) (hh : hashUrl pu.2 = some hsh) :
    storedWithAppearance (recordOne today rid st pu).2 hsh rid := by
  unfold recordOne
  simp only [hh]
  cases hf : findLinkByHash st.2 hsh with
  | some row =>
    simp only [hf]
    have hmem : row ∈ st.2.links := List.mem_of_find?_eq_some hf
    have hhash : row.url_hash = hsh := by
      have := List.find?_some hf
      rwa [beq_iff_eq] at this
    refine ⟨{ row with last_seen := some (DateStr.d today), seen_count := row.seen_count + 1 }, ?_, hhash, ?_⟩
    · rw [insertAppearanceOrIgnore_links]
      unfold updateLinkById
      simp only
      have := List.mem_map_of_mem
        (fun r => if r.id = row.id then { r with last_seen := some (DateStr.d today), seen_count := r.seen_count + 1 } else r) hmem
      simpa using this
    · exact insertAppearanceOrIgnore_stored _ row.id rid _
  | none =>
    simp only [hf]
    refine ⟨{ id := st.2.nextLinkId, url := pu.2, domain := extractDomain pu.2, first_seen := today, last_seen := some (DateStr.d today), seen_count := 1, is_blacklisted := false, blacklisted_date := none, blacklist_reason := none, url_hash := hsh }, ?_, rfl, ?_⟩
    · rw [insertAppearanceOrIgnore_links]
      unfold insertLink
      simp
    · exact insertAppearanceOrIgnore_stored _ st.2.nextLinkId rid _

theorem recordOne_preserves_stored (today : Int) (rid : Nat) (st : Nat × Store)
    (pu : Nat × String) (hsh : String)
    (h : storedWithAppearance st.2 hsh rid) :
    storedWithAppearance (recordOne today rid st pu).2 hsh rid := by
  obtain ⟨r, hr, hrh, a, ha, hal, har⟩ := h
  unfold recordOne
  cases hh : hashUrl pu.2 with
  | none => exact ⟨r, by simpa [hh] using hr, hrh, a, by simpa [hh] using ha, hal, har⟩
  | some hsh2 =>
    simp only [hh]
    cases hf : findLinkByHash st.2 hsh2 with
    | some row =>
      simp only [hf]
      refine ⟨if r.id = row.id then { r with last_seen := some (DateStr.d today), seen_count := r.seen_count + 1 } else r, ?_, ?_, a, ?_, ?_, har⟩
      · rw [insertAppearanceOrIgnore_links]
        unfold updateLinkById
        simp only
        exact List.mem_map_of_mem _ hr
      · split <;> simpa using hrh
      · exact insertAppearanceOrIgnore_mem _ _ _ _ ha
      · split <;> simp [hal]
    | none =>
      simp only [hf]
      refine ⟨r, ?_, hrh, a, ?_, hal, har⟩
      · rw [insertAppearanceOrIgnore_links]
        unfold insertLink
        simp only
        exact List.mem_append_left _ hr
      · exact insertAppearanceOrIgnore_mem _ _ _ _ ha

theorem record_foldl_preserves_stored (today : Int) (rid : Nat)
    (pl : List (Nat × String)) : ∀ (st : Nat × Store) (hsh : String),
    storedWithAppearance st.2 hsh rid →
    storedWithAppearance (pl.foldl (recordOne today rid) st).2 hsh rid := by
  induction pl with
  | nil => exact fun st hsh h => h
  | cons q pl ih =>
    intro st hsh h
    rw [List.foldl_cons]
    exact ih _ _ (recordOne_preserves_stored today rid st q hsh h)

theorem record_foldl_stored (today : Int) (rid : Nat) (pl : List (Nat × String)) :
    ∀ (st : Nat × Store) (pu : Nat × String) (hsh : String), pu ∈ pl →
    hashUrl pu.2 = some hsh →
    storedWithAppearance (pl.foldl (recordOne today rid) st).2 hsh rid := by
  induction pl with
  | nil => intro st pu hsh hmem; exact absurd hmem (List.not_mem_nil pu)
  | cons q pl ih =>
    intro st pu hsh hmem hh
    rw [List.foldl_cons]
    rcases List.mem_cons.mp hmem with heq | htl
    · subst heq
      exact record_foldl_preserves_stored today rid pl _ hsh
        (recordOne_establishes today rid st pu hsh hh)
    · exact ih _ pu hsh htl hh

/-- C8: per-item failure isolation in `record_opened_links`.  The reported
`recorded_count` equals the number of batch URLs whose hashing succeeds;
for a nonempty batch exactly one Run row is appended; every URL that
hashes ends up stored with a Link row and an Appearance row for that run;
and on the concrete batch `[a, b, c]` with `b` malformed
(`_hash_url` raises), exactly `{a, c}` are stored and
`recorded_count = 2`. -/
theorem record_isolates_per_item_failures (cfg : Option Config)
    (today now : Int) (links : List String) (nh : Option String) (s : Store) :
    ((recordOpenedLinks cfg today now links nh s).1.recorded_count
      = links.countP (fun u => (hashUrl u).isSome))
    ∧ (links ≠ [] → ∃ rr, (recordOpenedLinks cfg today now links nh s).2.runs
        = s.runs ++ [rr])
    ∧ (links ≠ [] → ∀ u ∈ links, ∀ hsh, hashUrl u = some hsh → ∃ rid,
        storedWithAppearance (recordOpenedLinks cfg today now links nh s).2 hsh rid)
    ∧ (∀ a b c : String, (hashUrl a).isSome → hashUrl b = none →
        (hashUrl c).isSome →
        (recordOpenedLinks cfg today now [a, b, c] nh s).1.recorded_count = 2)
    ∧ (((recordOpenedLinks none 20 0
          ["http://a.com/1", "http://[bad", "http://c.com/2"] none {}).2.links.map
            (fun r => r.url)) = ["http://a.com/1", "http://c.com/2"]
      ∧ (recordOpenedLinks none 20 0
          ["http://a.com/1", "http://[bad", "http://c.com/2"] none {}).1.recorded_count = 2) := by
  have hcount : ∀ (links' : List String),
      (recordOpenedLinks cfg today now links' nh s).1.recorded_count
        = links'.countP (fun u => (hashUrl u).isSome) := by
    intro links'
    unfold recordOpenedLinks
    cases links' with
    | nil => rfl
    | cons x xs =>
      simp only [List.isEmpty_cons, Bool.false_eq_true, if_false]
      rw [record_foldl_count]
      rw [Nat.zero_add]
      have : ∀ (l : List String) (n : Nat),
          (l.enumFrom n).countP (fun pu => (hashUrl pu.2).isSome)
            = l.countP (fun u => (hashUrl u).isSome) := by
        intro l
        induction l with
        | nil => intro n; rfl
        | cons y ys ihy =>
          intro n
          simp only [List.enumFrom, List.countP_cons, ihy]
      exact this (x :: xs) 0
  have hmem_enum : ∀ (l : List String) (u : String), u ∈ l → ∀ n : Nat,
      ∃ i, (i, u) ∈ l.enumFrom n := by
    intro l
    induction l with
    | nil => intro u hu; exact absurd hu (List.not_mem_nil u)
    | cons y ys ihy =>
      intro u hu n
      rcases List.mem_cons.mp hu with heq | htl
      · subst heq
        exact ⟨n, List.mem_cons_self _ _⟩
      · obtain ⟨i, hi⟩ := ihy u htl (n + 1)
        exact ⟨i, List.mem_cons_of_mem _ hi⟩
  refine ⟨hcount links, ?_, ?_, ?_, by constructor <;> rfl⟩
  · intro hne
    unfold recordOpenedLinks
    rw [if_neg (by simpa using hne)]
    simp only
    rw [record_foldl_runs]
    unfold insertRun
    simp only
    rw [autoBlacklist_runs]
    exact ⟨_, rfl⟩
  · intro hne u hu hsh hh
    unfold recordOpenedLinks
    rw [if_neg (by simpa using hne)]
    simp only
    obtain ⟨i, hi⟩ := hmem_enum links u hu 0
    exact ⟨_, record_foldl_stored today _ links.enum _ (i, u) hsh hi hh⟩
  · intro a b c ha hb hc
    rw [hcount [a, b, c]]
    simp only [List.countP_cons, List.countP_nil]
    rw [Option.isSome_iff_exists] at ha hc
    obtain ⟨xa, hxa⟩ := ha
    obtain ⟨xc, hxc⟩ := hc
    simp [hxa, hxc, hb]

/-- C8 witness: the isolation theorem applied to the concrete batch
`[a, b, c]` with `b` malformed (unclosed IPv6 bracket, on which
`_hash_url` raises). -/
theorem record_isolates_per_item_failures_witness :
    (hashUrl "http://a.com/1").isSome = true
    ∧ hashUrl "http://[bad" = none
    ∧ (hashUrl "http://c.com/2").isSome = true
    ∧ (recordOpenedLinks none 20 0
        ["http://a.com/1", "http://[bad", "http://c.com/2"] none {}).1.recorded_count = 2 :=
  ⟨by rfl, by rfl, by rfl,
   (record_isolates_per_item_failures none 20 0
      ["http://a.com/1", "http://[bad", "http://c.com/2"] none {}).2.2.2.1
     "http://a.com/1" "http://[bad" "http://c.com/2" (by rfl) (by rfl) (by rfl)⟩

/-! ## C7: the blacklist-field invariant is preserved by every operation -/

/-- The per-row invariant: `is_blacklisted ⇔ blacklisted_date != null`,
and `blacklist_reason` is null iff the row is not blacklisted. -/
def LinkRow.blOk (r : LinkRow) : Prop :=
  (r.is_blacklisted = true ↔ r.blacklisted_date ≠ none)
  ∧ (r.blacklist_reason = none ↔ r.is_blacklisted = false)

/-- The store-level blacklist invariant. -/
def Store.blInv (s : Store) : Prop := ∀ r ∈ s.links, r.blOk

theorem blOk_of_mem_map_ite {s : List LinkRow} {q : LinkRow → Prop}
    [DecidablePred q] {f : LinkRow → LinkRow}
    (hf : ∀ r, r.blOk → (f r).blOk) (h : ∀ r ∈ s, r.blOk) :
    ∀ r ∈ s.map (fun r => if q r then f r else r), r.blOk := by
  intro r hr
  rw [List.mem_map] at hr
  obtain ⟨r0, hr0, heq⟩ := hr
  subst heq
  by_cases hq : q r0
  · rw [if_pos hq]; exact hf r0 (h r0 hr0)
  · rw [if_neg hq]; exact h r0 hr0

theorem recordOne_blInv (today : Int) (rid : Nat) (st : Nat × Store)
    (pu : Nat × String) (h : Store.blInv st.2) :
    Store.blInv (recordOne today rid st pu).2 := by
  unfold recordOne
  cases hh : hashUrl pu.2 with
  | none => simpa [hh] using h
  | some hsh =>
    simp only [hh]
    cases hf : findLinkByHash st.2 hsh with
    | some row =>
      simp only [hf]
      intro r hr
      rw [insertAppearanceOrIgnore_links] at hr
      unfold updateLinkById at hr
      simp only at hr
      exact @blOk_of_mem_map_ite _ (fun r => r.id = row.id) _
        (fun r => { r with last_seen := some (DateStr.d today), seen_count := r.seen_count + 1 })
        (fun r0 h0 => ⟨h0.1, h0.2⟩) h r hr
    | none =>
      simp only [hf]
      intro r hr
      rw [insertAppearanceOrIgnore_links] at hr
      unfold insertLink at hr
      simp only at hr
      rcases List.mem_append.mp hr with hin | hnew
      · exact h r hin
      · rw [List.mem_singleton] at hnew
        subst hnew
        exact ⟨by simp, by simp⟩

theorem record_foldl_blInv (today : Int) (rid : Nat)
    (pl : List (Nat × String)) : ∀ (st : Nat × Store),
    Store.blInv st.2 → Store.blInv (pl.foldl (recordOne today rid) st).2 := by
  induction pl with
  | nil => exact fun st h => h
  | cons pu pl ih =>
    intro st h
    rw [List.foldl_cons]
    exact ih _ (recordOne_blInv today rid st pu h)

theorem autoBlacklist_blInv (cfg : Option Config) (today : Int) (s : Store)
    (h : Store.blInv s) : Store.blInv (autoBlacklistOldLinks cfg today s).2 := by
  unfold autoBlacklistOldLinks
  split
  · unfold updateLinksWhere
    intro r hr
    exact blOk_of_mem_map_ite (fun r0 _ => ⟨by simp, by simp⟩) h r hr
  · exact h

/-- Well-formed snapshot entry: the fields restore writes back are
non-null, as they are for every entry `create_backup` emits from an
invariant-satisfying store. -/
def BackupEntry.wf (e : BackupEntry) : Prop :=
  e.blacklisted_date ≠ none ∧ e.blacklist_reason ≠ none

theorem restoreOne_blInv (st : Nat × Store) (e : BackupEntry)
    (he : e.wf) (h : Store.blInv st.2) : Store.blInv (restoreOne st e).2 := by
  unfold restoreOne updateLinksByHash
  intro r hr
  simp only at hr
  refine blOk_of_mem_map_ite (fun r0 _ => ⟨?_, ?_⟩) h r hr
  · simpa [applyBackupEntry] using he.1
  · simpa [applyBackupEntry] using he.2

theorem restore_foldl_blInv (es : List BackupEntry)
    (hwf : ∀ e ∈ es, e.wf) : ∀ (st : Nat × Store),
    Store.blInv st.2 → Store.blInv (es.foldl restoreOne st).2 := by
  induction es with
  | nil => exact fun st h => h
  | cons e es ih =>
    intro st h
    rw [List.foldl_cons]
    exact ih (fun e2 he2 => hwf e2 (List.mem_cons_of_mem _ he2)) _
      (restoreOne_blInv st e (hwf e (List.mem_cons_self _ _)) h)

/-- C7: every operation of the core preserves the link-row invariant
`is_blacklisted ⇔ blacklisted_date != null` (with `blacklist_reason`
null iff not blacklisted): record, blacklist, unblacklist, the auto-ager
sweep, rewind, and restore-from-backup (for a snapshot whose entries are
well-formed, which is exactly what `create_backup` produces from an
invariant store — the last conjunct). -/
theorem operations_preserve_blacklist_invariant
    (cfg : Option Config) (today now : Int) (links : List String)
    (nh : Option String) (url reason : String) (days : Int) (cb : Bool)
    (b : Backup) (s : Store) (hinv : Store.blInv s) :
    Store.blInv (recordOpenedLinks cfg today now links nh s).2
    ∧ (∀ res s', blacklistUrl today url reason s = some (res, s') → Store.blInv s')
    ∧ (∀ res s', unblacklistUrl url s = some (res, s') → Store.blInv s')
    ∧ Store.blInv (autoBlacklistOldLinks cfg today s).2
    ∧ Store.blInv (performRewind today days cb s).2
    ∧ ((∀ e ∈ b.blacklisted_links, e.wf) → Store.blInv (restoreFromBackup b s).2)
    ∧ (∀ e ∈ (createBackup s).blacklisted_links, e.wf) := by
  refine ⟨?_, ?_, ?_, autoBlacklist_blInv cfg today s hinv, ?_, ?_, ?_⟩
  · unfold recordOpenedLinks
    split
    · exact hinv
    · exact record_foldl_blInv today _ links.enum _
        (autoBlacklist_blInv cfg today s hinv)
  · intro res s' hbl
    unfold blacklistUrl at hbl
    cases hh : hashUrl url with
    | none => rw [hh] at hbl; exact absurd hbl (by simp)
    | some hsh =>
      rw [hh] at hbl
      simp only [Option.map_some', Option.some.injEq] at hbl
      rw [Prod.mk.injEq] at hbl
      obtain ⟨hres, hs'⟩ := hbl
      subst hs'
      unfold updateLinksByHash
      intro r hr
      simp only at hr
      exact blOk_of_mem_map_ite (fun r0 _ => ⟨by simp, by simp⟩) hinv r hr
  · intro res s' hbl
    unfold unblacklistUrl at hbl
    cases hh : hashUrl url with
    | none => rw [hh] at hbl; exact absurd hbl (by simp)
    | some hsh =>
      rw [hh] at hbl
      simp only [Option.map_some', Option.some.injEq] at hbl
      rw [Prod.mk.injEq] at hbl
      obtain ⟨hres, hs'⟩ := hbl
      subst hs'
      unfold updateLinksByHash
      intro r hr
      simp only at hr
      exact blOk_of_mem_map_ite (fun r0 _ => ⟨by simp, by simp⟩) hinv r hr
  · unfold performRewind updateLinksWhere
    intro r hr
    simp only at hr
    exact blOk_of_mem_map_ite
      (fun r0 _ => ⟨by simp [clearBlacklist], by simp [clearBlacklist]⟩) hinv r hr
  · intro hwf
    unfold restoreFromBackup
    exact restore_foldl_blInv b.blacklisted_links hwf _ hinv
  · intro e he
    unfold createBackup at he
    simp only [List.mem_map] at he
    obtain ⟨r, hr, heq⟩ := he
    rw [List.mem_filter] at hr
    have hok := hinv r hr.1
    have hbl : r.is_blacklisted = true := hr.2
    subst heq
    constructor
    · show r.blacklisted_date ≠ none
      exact hok.1.mp hbl
    · show r.blacklist_reason ≠ none
      intro hnone
      have := hok.2.mp hnone
      rw [hbl] at this
      exact absurd this (by decide)

/-- C7 witness: the preservation theorem applied on a concrete
invariant-satisfying store. -/
theorem operations_preserve_blacklist_invariant_witness :
    Store.blInv exampleRewindStore
    ∧ Store.blInv (performRewind 20 7 false exampleRewindStore).2 := by
  have hinv : Store.blInv exampleRewindStore := by
    intro r hr
    unfold exampleRewindStore at hr
    simp only [List.mem_cons, List.not_mem_nil, or_false] at hr
    rcases hr with h | h | h | h <;> subst h <;> exact ⟨by simp, by simp⟩
  exact ⟨hinv,
    (operations_preserve_blacklist_invariant none 20 0 [] none "u" "r" 7 false
      ⟨0, []⟩ exampleRewindStore hinv).2.2.2.2.1⟩

/-! ## C3: backup / rewind / restore round-trip -/

/-- Per-row effect of one restore entry. -/
def restoreRowStep (r : LinkRow) (e : BackupEntry) : LinkRow :=
  if r.url_hash == e.url_hash then applyBackupEntry e r else r

theorem restoreRowStep_hash (r : LinkRow) (e : BackupEntry) :
    (restoreRowStep r e).url_hash = r.url_hash := by
  unfold restoreRowStep applyBackupEntry
  split <;> rfl

/-- The restore fold acts on the store as an independent per-row fold
over the snapshot entries (runs, appearances and counters untouched). -/
theorem restore_foldl_store (es : List BackupEntry) : ∀ (st : Nat × Store),
    (es.foldl restoreOne st).2
      = { st.2 with links := st.2.links.map (fun r => es.foldl restoreRowStep r) } := by
  induction es with
  | nil =>
    intro st
    simp only [List.foldl_nil]
    rcases st with ⟨c, s⟩
    rcases s with ⟨links, runs, apps, n1, n2, n3⟩
    simp
  | cons e es ih =>
    intro st
    rw [List.foldl_cons, ih]
    unfold restoreOne updateLinksByHash
    simp only [List.map_map]
    rfl

theorem restore_rowstep_noop (r : LinkRow) (es : List BackupEntry)
    (h : ∀ e ∈ es, (r.url_hash == e.url_hash) = false) :
    es.foldl restoreRowStep r = r := by
  induction es with
  | nil => rfl
  | cons e es ih =>
    rw [List.foldl_cons]
    have he := h e (List.mem_cons_self _ _)
    unfold restoreRowStep
    rw [he]
    simp only [Bool.false_eq_true, if_false]
    exact ih (fun e2 he2 => h e2 (List.mem_cons_of_mem _ he2))

theorem any_hash_stable (st : Nat × Store) (e : BackupEntry) (x : String) :
    ((restoreOne st e).2.links.any (fun r => r.url_hash == x))
      = (st.2.links.any (fun r => r.url_hash == x)) := by
  unfold restoreOne updateLinksByHash
  simp only [List.any_map]
  congr 1
  funext r
  simp only [Function.comp_apply]
  split <;> rfl

theorem restore_foldl_count (es : List BackupEntry) : ∀ (st : Nat × Store),
    (es.foldl restoreOne st).1
      = st.1 + es.countP (fun e => st.2.links.any (fun r => r.url_hash == e.url_hash)) := by
  induction es with
  | nil => intro st; simp
  | cons e es ih =>
    intro st
    rw [List.foldl_cons, ih, List.countP_cons]
    have hstable : (fun e2 : BackupEntry =>
        (restoreOne st e).2.links.any (fun r => r.url_hash == e2.url_hash))
        = (fun e2 : BackupEntry =>
        st.2.links.any (fun r => r.url_hash == e2.url_hash)) :=
      funext (fun e2 => any_hash_stable st e e2.url_hash)
    rw [hstable]
    unfold restoreOne updateLinksByHash
    simp only
    by_cases hany : st.2.links.any (fun r => r.url_hash == e.url_hash) = true
    · rw [List.any_eq_true] at hany
      obtain ⟨r, hr, hpr⟩ := hany
      have hpos : 0 < st.2.links.countP (fun r => r.url_hash == e.url_hash) :=
        List.countP_pos_iff.mpr ⟨r, hr, hpr⟩
      rw [if_pos hpos]
      have hat : (st.2.links.any (fun r => r.url_hash == e.url_hash)) = true :=
        List.any_eq_true.mpr ⟨r, hr, hpr⟩
      rw [hat]
      simp only [if_true]
      omega
    · have hfalse : (st.2.links.any (fun r => r.url_hash == e.url_hash)) = false := by
        simpa using hany
      have h0 : st.2.links.countP (fun r => r.url_hash == e.url_hash) = 0 := by
        rw [List.countP_eq_zero]
        intro a ha
        have := List.any_eq_false.mp hfalse a ha
        simpa using this
      rw [h0, hfalse]
      simp

theorem restoreOne_noop (st : Nat × Store) (e : BackupEntry)
    (hfalse : (st.2.links.any (fun r => r.url_hash == e.url_hash)) = false) :
    restoreOne st e = st := by
  have h0 : st.2.links.countP (fun r => r.url_hash == e.url_hash) = 0 := by
    rw [List.countP_eq_zero]
    intro a ha
    have := List.any_eq_false.mp hfalse a ha
    simpa using this
  have hmap : st.2.links.map
      (fun r => if r.url_hash == e.url_hash then applyBackupEntry e r else r)
      = st.2.links := by
    have hpt : ∀ r ∈ st.2.links,
        (if r.url_hash == e.url_hash then applyBackupEntry e r else r) = id r := by
      intro r hr
      have := List.any_eq_false.mp hfalse r hr
      rw [if_neg (by simpa using this)]
      rfl
    rw [List.map_congr_left hpt, List.map_id]
  unfold restoreOne updateLinksByHash
  simp only [h0, hmap]
  rcases st with ⟨c, s⟩
  rcases s with ⟨links, runs, apps, n1, n2, n3⟩
  simp

theorem restore_skips_missing (es : List BackupEntry) : ∀ (st : Nat × Store),
    ((es.filter (fun e => st.2.links.any (fun r => r.url_hash == e.url_hash))).foldl
        restoreOne st).2
      = (es.foldl restoreOne st).2 := by
  induction es with
  | nil => intro st; rfl
  | cons e es ih =>
    intro st
    by_cases hany : (st.2.links.any (fun r => r.url_hash == e.url_hash)) = true
    · rw [@List.filter_cons_of_pos _
        (fun e2 : BackupEntry => st.2.links.any (fun r => r.url_hash == e2.url_hash))
        e es hany, List.foldl_cons, List.foldl_cons]
      have hstable : (fun e2 : BackupEntry =>
          (restoreOne st e).2.links.any (fun r => r.url_hash == e2.url_hash))
          = (fun e2 : BackupEntry =>
          st.2.links.any (fun r => r.url_hash == e2.url_hash)) :=
        funext (fun e2 => any_hash_stable st e e2.url_hash)
      have hrec := ih (restoreOne st e)
      rw [hstable] at hrec
      exact hrec
    · have hfalse : (st.2.links.any (fun r => r.url_hash == e.url_hash)) = false := by
        simpa using hany
      rw [@List.filter_cons_of_neg _
        (fun e2 : BackupEntry => st.2.links.any (fun r => r.url_hash == e2.url_hash))
        e es (by simp [hfalse]), List.foldl_cons,
        restoreOne_noop st e hfalse]
      exact ih st

theorem backup_hashes_nodup (s : Store)
    (hnd : (s.links.map (fun r => r.url_hash)).Nodup) :
    ((createBackup s).blacklisted_links.map (fun e => e.url_hash)).Nodup := by
  unfold createBackup
  simp only [List.map_map]
  exact ((List.filter_sublist s.links).map (fun r => r.url_hash)).nodup hnd

theorem clearBlacklist_hash (r : LinkRow) :
    (clearBlacklist r).url_hash = r.url_hash := rfl

theorem rewindStep_hash (c : Int) (r : LinkRow) :
    (if rewindPred c r then clearBlacklist r else r).url_hash = r.url_hash := by
  split <;> rfl

/-- The per-row round trip: rewinding a row (possibly clearing its
blacklist fields) and then re-applying the snapshot of the original
store restores exactly the original row, given hash uniqueness. -/
theorem roundtrip_row (s : Store)
    (hnd : (s.links.map (fun r => r.url_hash)).Nodup) (c : Int) :
    ∀ r ∈ s.links,
      (createBackup s).blacklisted_links.foldl restoreRowStep
        (if rewindPred c r then clearBlacklist r else r) = r := by
  intro r hr
  have hinj := List.inj_on_of_nodup_map hnd
  cases hbl : r.is_blacklisted with
  | false =>
    have hpred : rewindPred c r = false := by
      unfold rewindPred
      rw [hbl]
      rfl
    rw [hpred]
    simp only [Bool.false_eq_true, if_false]
    apply restore_rowstep_noop
    intro e he
    unfold createBackup at he
    simp only [List.mem_map] at he
    obtain ⟨r2, hr2, heq⟩ := he
    rw [List.mem_filter] at hr2
    subst heq
    by_contra hne
    simp only [Bool.not_eq_false, beq_iff_eq] at hne
    have : r = r2 := hinj hr hr2.1 hne
    subst this
    rw [hbl] at hr2
    exact absurd hr2.2 (by decide)
  | true =>
    have hmem : toBackupEntry r ∈ (createBackup s).blacklisted_links := by
      unfold createBackup
      simp only [List.mem_map]
      exact ⟨r, List.mem_filter.mpr ⟨hr, hbl⟩, rfl⟩
    obtain ⟨as, bs, hsplit⟩ := List.append_of_mem hmem
    have hesnd := backup_hashes_nodup s hnd
    rw [hsplit] at hesnd
    rw [List.map_append, List.map_cons] at hesnd
    have hnotas : (toBackupEntry r).url_hash ∉ as.map (fun e => e.url_hash) := by
      intro hin
      rcases (List.nodup_append.mp hesnd) with ⟨_, _, hdisj⟩
      exact hdisj hin (List.mem_cons_self _ _)
    have hnotbs : (toBackupEntry r).url_hash ∉ bs.map (fun e => e.url_hash) := by
      rcases (List.nodup_append.mp hesnd) with ⟨_, hcons, _⟩
      exact (List.nodup_cons.mp hcons).1
    rw [hsplit, List.foldl_append, List.foldl_cons]
    have hstep : ∀ (r1 : LinkRow), r1.url_hash = r.url_hash →
        ∀ e ∈ as, (r1.url_hash == e.url_hash) = false := by
      intro r1 hh e he
      by_contra hne
      simp only [Bool.not_eq_false, beq_iff_eq] at hne
      apply hnotas
      rw [List.mem_map]
      exact ⟨e, he, by rw [← hne, hh]; rfl⟩
    have hfold1 : as.foldl restoreRowStep
        (if rewindPred c r then clearBlacklist r else r)
        = (if rewindPred c r then clearBlacklist r else r) :=
      restore_rowstep_noop _ as (hstep _ (rewindStep_hash c r) )
    rw [hfold1]
    have happly : restoreRowStep
        (if rewindPred c r then clearBlacklist r else r) (toBackupEntry r) = r := by
      unfold restoreRowStep
      rw [if_pos (by rw [rewindStep_hash c r]; exact beq_self_eq_true _)]
      rcases r with ⟨i, u, t, dm, fs, ls, sc, bl, bd, br, uh⟩
      simp only at hbl
      subst hbl
      unfold applyBackupEntry toBackupEntry clearBlacklist
      split <;> rfl
    rw [happly]
    apply restore_rowstep_noop
    intro e he
    by_contra hne
    simp only [Bool.not_eq_false, beq_iff_eq] at hne
    apply hnotbs
    rw [List.mem_map]
    exact ⟨e, he, by rw [← hne]; rfl⟩

/-- C3: `create_backup`, then `perform_rewind(days)`, then
`restore_from_backup` of that snapshot returns the store (blacklisted
set with dates and reasons, and all other rows and relations) exactly to
its pre-mutation state, provided link hashes are unique; with every
snapshot hash still present, `restored_count = total_in_backup`.  On an
arbitrary snapshot and store, entries whose `url_hash` no longer exists
are skipped without modifying any row (the restore equals the restore of
the snapshot filtered to existing hashes) and are distinguishable:
`restored_count` counts exactly the entries whose hash exists while
`total_in_backup` counts all entries. -/
theorem backup_rewind_restore_roundtrip (s : Store) (today days : Int)
    (cb : Bool) (b : Backup) (s₀ : Store)
    (hnd : (s.links.map (fun r => r.url_hash)).Nodup) :
    ((restoreFromBackup (createBackup s) (performRewind today days cb s).2).2 = s)
    ∧ ((restoreFromBackup (createBackup s) (performRewind today days cb s).2).1.restored_count
        = (createBackup s).blacklisted_links.length)
    ∧ ((restoreFromBackup (createBackup s) (performRewind today days cb s).2).1.total_in_backup
        = (createBackup s).blacklisted_links.length)
    ∧ ((restoreFromBackup b s₀).1.restored_count
        = (b.blacklisted_links.filter
            (fun e => s₀.links.any (fun r => r.url_hash == e.url_hash))).length)
    ∧ ((restoreFromBackup b s₀).1.total_in_backup = b.blacklisted_links.length)
    ∧ ((restoreFromBackup b s₀).2
        = (restoreFromBackup
            ⟨b.total_blacklisted,
             b.blacklisted_links.filter
               (fun e => s₀.links.any (fun r => r.url_hash == e.url_hash))⟩ s₀).2) := by
  have hany_rewound : ∀ e ∈ (createBackup s).blacklisted_links,
      ((performRewind today days cb s).2.links.any
        (fun r => r.url_hash == e.url_hash)) = true := by
    intro e he
    unfold createBackup at he
    simp only [List.mem_map] at he
    obtain ⟨r2, hr2, heq⟩ := he
    rw [List.mem_filter] at hr2
    subst heq
    unfold performRewind updateLinksWhere
    simp only
    rw [List.any_eq_true]
    refine ⟨_, List.mem_map_of_mem
      (fun r => if rewindPred (today - days) r then clearBlacklist r else r) hr2.1, ?_⟩
    rw [rewindStep_hash]
    exact beq_self_eq_true _
  refine ⟨?_, ?_, rfl, ?_, rfl, ?_⟩
  · unfold restoreFromBackup
    simp only
    rw [restore_foldl_store]
    show ({ (performRewind today days cb s).2 with
      links := (performRewind today days cb s).2.links.map
        (fun r => (createBackup s).blacklisted_links.foldl restoreRowStep r) } = s)
    unfold performRewind updateLinksWhere
    simp only [List.map_map]
    have hpt : ∀ r ∈ s.links,
        ((fun r => (createBackup s).blacklisted_links.foldl restoreRowStep r)
          ∘ (fun r => if rewindPred (today - days) r then clearBlacklist r else r)) r
          = id r := by
      intro r hr
      simp only [Function.comp_apply, id_eq]
      exact roundtrip_row s hnd (today - days) r hr
    rw [List.map_congr_left hpt, List.map_id]
  · unfold restoreFromBackup
    simp only
    rw [restore_foldl_count]
    rw [Nat.zero_add]
    exact List.countP_eq_length.mpr (fun e he => hany_rewound e he)
  · unfold restoreFromBackup
    simp only
    rw [restore_foldl_count]
    rw [Nat.zero_add]
    rw [← List.countP_eq_length_filter]
  · unfold restoreFromBackup
    simp only
    exact (restore_skips_missing b.blacklisted_links (0, s₀)).symm

/-- C3 witness: the round trip on the concrete 1/2/7/14-days-ago store:
backup, rewind 10 days, restore recovers the store exactly. -/
theorem backup_rewind_restore_roundtrip_witness :
    ((exampleRewindStore.links.map (fun r => r.url_hash)).Nodup)
    ∧ ((restoreFromBackup (createBackup exampleRewindStore)
        (performRewind 20 10 false exampleRewindStore).2).2 = exampleRewindStore) :=
  ⟨by decide,
   (backup_rewind_restore_roundtrip exampleRewindStore 20 10 false ⟨0, []⟩ {}
      (by decide)).1⟩

/-! ## C5: URL normalization determinism -/

theorem char_le_toNat {a b : Char} (h : a ≤ b) : a.toNat ≤ b.toNat := by
  rw [Char.le_def, UInt32.le_def, BitVec.le_def] at h
  exact h

theorem asciiLower_toNat (c : Char) (h : 'A' ≤ c ∧ c ≤ 'Z') :
    (asciiLower c).toNat = c.toNat + 32 := by
  have hub : c.toNat ≤ 90 := char_le_toNat h.2
  unfold asciiLower
  rw [if_pos h, Char.ofNat, dif_pos (Or.inl (by omega))]
  rfl

theorem asciiLower_toNat_ge (c : Char) (h : 'A' ≤ c ∧ c ≤ 'Z') :
    97 ≤ (asciiLower c).toNat := by
  have hlb : 65 ≤ c.toNat := char_le_toNat h.1
  rw [asciiLower_toNat c h]
  omega

theorem ne_of_toNat_ne {a b : Char} (h : a.toNat ≠ b.toNat) : a ≠ b :=
  fun he => h (congrArg Char.toNat he)

theorem asciiLower_eq_hash {c : Char} (h : asciiLower c = '#') : c = '#' := by
  by_cases hr : 'A' ≤ c ∧ c ≤ 'Z'
  · exfalso
    have := asciiLower_toNat_ge c hr
    rw [h] at this
    exact absurd this (by decide)
  · unfold asciiLower at h
    rwa [if_neg hr] at h

theorem isWs_asciiLower (c : Char) : isWs (asciiLower c) = isWs c := by
  by_cases hr : 'A' ≤ c ∧ c ≤ 'Z'
  · have hge := asciiLower_toNat_ge c hr
    have hlb : 65 ≤ c.toNat := char_le_toNat hr.1
    have h1 : isWs (asciiLower c) = false := by
      unfold isWs
      simp only [decide_eq_false_iff_not, not_or]
      refine ⟨?_, ?_, ?_, ?_⟩ <;>
        (intro he; rw [he] at hge; exact absurd hge (by decide))
    have h2 : isWs c = false := by
      unfold isWs
      simp only [decide_eq_false_iff_not, not_or]
      refine ⟨?_, ?_, ?_, ?_⟩ <;>
        (intro he; rw [he] at hlb; exact absurd hlb (by decide))
    rw [h1, h2]
  · unfold asciiLower
    rw [if_neg hr]

theorem hash_not_mem_lowerL {l : List Char} (h : '#' ∉ l) : '#' ∉ lowerL l := by
  intro hmem
  unfold lowerL at hmem
  rw [List.mem_map] at hmem
  obtain ⟨c, hc, hce⟩ := hmem
  rw [asciiLower_eq_hash hce] at hc
  exact h hc

theorem takeWhile_append_stop {q : Char → Bool} {c : Char} (hc : q c = false)
    (l t : List Char) : (l ++ c :: t).takeWhile q = l.takeWhile q := by
  induction l with
  | nil => simp [List.takeWhile_cons, hc]
  | cons a l ih =>
    simp only [List.cons_append, List.takeWhile_cons]
    cases hqa : q a
    · simp
    · simp [ih]

theorem dropWhile_append_stop {q : Char → Bool} {c : Char} (hc : q c = false)
    (l t : List Char) : (l ++ c :: t).dropWhile q = l.dropWhile q ++ c :: t := by
  induction l with
  | nil => simp [List.dropWhile_cons, hc]
  | cons a l ih =>
    simp only [List.cons_append, List.dropWhile_cons]
    cases hqa : q a
    · simp
    · simp [ih]

theorem stripLeft_append_hash (l t : List Char) :
    stripLeft (l ++ '#' :: t) = stripLeft l ++ '#' :: t :=
  dropWhile_append_stop (by decide) l t

theorem stripRight_append_hash (l t : List Char) :
    stripRight (l ++ '#' :: t) = l ++ '#' :: stripRight t := by
  unfold stripRight
  rw [List.reverse_append, List.reverse_cons, List.append_assoc, List.singleton_append,
    dropWhile_append_stop (by decide), List.reverse_append, List.reverse_cons,
    List.reverse_reverse, List.append_assoc, List.singleton_append]

theorem stripRight_of_getLast {l : List Char}
    (h : ∀ c, l.getLast? = some c → isWs c = false) : stripRight l = l := by
  unfold stripRight
  cases hx : l.reverse with
  | nil =>
    have : l = [] := by simpa using congrArg List.reverse hx
    subst this
    rfl
  | cons c rest =>
    have hl : l.getLast? = some c := by
      rw [← List.head?_reverse, hx]
      rfl
    rw [List.dropWhile_cons, h c hl]
    simp only [Bool.false_eq_true, if_false]
    rw [← hx, List.reverse_reverse]

theorem stripL_append_hash (l t : List Char)
    (h : ∀ c, l.getLast? = some c → isWs c = false) :
    stripL (l ++ '#' :: t) = stripL l ++ '#' :: stripRight t := by
  unfold stripL
  rw [stripLeft_append_hash, stripRight_append_hash]
  congr 1
  have hsub : ∀ c, (stripLeft l).getLast? = some c → isWs c = false := by
    intro c hc
    unfold stripLeft at hc
    cases hd : l.dropWhile isWs with
    | nil => rw [hd] at hc; exact absurd hc (by simp)
    | cons a rest =>
      have : l.getLast? = some c := by
        have hsuf := List.dropWhile_suffix (l := l) isWs
        obtain ⟨pre, hpre⟩ := hsuf
        rw [← hpre, List.getLast?_append]
        rw [hd] at hc ⊢
        rw [hc]
        simp
      exact h c this
  rw [stripRight_of_getLast hsub]

theorem splitAtFirst_eq_none {c : Char} {l : List Char} (h : c ∉ l) :
    splitAtFirst c l = none := by
  induction l with
  | nil => rfl
  | cons x xs ih =>
    have hxc : ¬ x = c := fun he => h (by rw [← he]; exact List.mem_cons_self x xs)
    simp only [splitAtFirst]
    rw [if_neg hxc, ih (fun hm => h (List.mem_cons_of_mem x hm))]
    rfl

theorem splitAtFirst_decomp {c : Char} {l : List Char} {p : List Char × List Char}
    (h : splitAtFirst c l = some p) : l = p.1 ++ c :: p.2 ∧ c ∉ p.1 := by
  induction l generalizing p with
  | nil => exact absurd h (by simp [splitAtFirst])
  | cons x xs ih =>
    simp only [splitAtFirst] at h
    by_cases hx : x = c
    · rw [if_pos hx] at h
      injection h with h
      subst h
      subst hx
      exact ⟨rfl, List.not_mem_nil _⟩
    · rw [if_neg hx, Option.map_eq_some'] at h
      obtain ⟨q, hq, hp⟩ := h
      obtain ⟨hdec, hnm⟩ := ih hq
      subst hp
      constructor
      · rw [List.cons_append, ← hdec]
      · intro hmem
        rcases List.mem_cons.mp hmem with he | hm
        · exact hx he.symm
        · exact hnm hm

theorem splitAtFirst_append_some {c : Char} {l : List Char}
    {p : List Char × List Char} (h : splitAtFirst c l = some p) (t : List Char) :
    splitAtFirst c (l ++ t) = some (p.1, p.2 ++ t) := by
  induction l generalizing p with
  | nil => exact absurd h (by simp [splitAtFirst])
  | cons x xs ih =>
    rw [List.cons_append]
    simp only [splitAtFirst] at h ⊢
    by_cases hx : x = c
    · rw [if_pos hx] at h ⊢
      injection h with h
      subst h
      rfl
    · rw [if_neg hx, Option.map_eq_some'] at h
      rw [if_neg hx]
      obtain ⟨q, hq, hp⟩ := h
      rw [ih hq]
      subst hp
      rfl

theorem splitAtFirst_append_none {c : Char} {l : List Char}
    (h : splitAtFirst c l = none) (t : List Char) :
    splitAtFirst c (l ++ t)
      = (splitAtFirst c t).map (fun p => (l ++ p.1, p.2)) := by
  induction l with
  | nil =>
    simp only [List.nil_append]
    cases hs : splitAtFirst c t with
    | none => rfl
    | some p => simp
  | cons x xs ih =>
    rw [List.cons_append]
    simp only [splitAtFirst] at h ⊢
    by_cases hx : x = c
    · rw [if_pos hx] at h
      exact absurd h (by simp)
    · rw [if_neg hx] at h ⊢
      have hxs : splitAtFirst c xs = none := by
        cases hs : splitAtFirst c xs with
        | none => rfl
        | some q => rw [hs] at h; exact absurd h (by simp)
      rw [ih hxs]
      cases hs : splitAtFirst c t with
      | none => rfl
      | some p => simp

theorem splitAtFirst_mid {c : Char} {l : List Char} (h : c ∉ l) (t : List Char) :
    splitAtFirst c (l ++ c :: t) = some (l, t) := by
  rw [splitAtFirst_append_none (splitAtFirst_eq_none h)]
  simp [splitAtFirst]

theorem extractScheme_append_hash {X : List Char} (hX : '#' ∉ X) (F : List Char) :
    extractScheme (X ++ '#' :: F)
      = ((extractScheme X).1, (extractScheme X).2 ++ '#' :: F) := by
  cases hs : splitAtFirst ':' X with
  | some p =>
    obtain ⟨p1, p2⟩ := p
    unfold extractScheme
    simp only [hs, splitAtFirst_append_some hs]
    by_cases hc : p1 ≠ [] ∧ ((p1.headD ' ').isAlpha = true) ∧ (p1.all isSchemeChar = true)
    · rw [if_pos hc, if_pos hc]
    · rw [if_neg hc, if_neg hc]
  | none =>
    unfold extractScheme
    simp only [hs, splitAtFirst_append_none hs]
    cases hs2 : splitAtFirst ':' ('#' :: F) with
    | none => rfl
    | some q =>
      obtain ⟨q1, q2⟩ := q
      have hq1 : ∃ a, q1 = '#' :: a := by
        simp only [splitAtFirst] at hs2
        rw [if_neg (by decide), Option.map_eq_some'] at hs2
        obtain ⟨a, ha, he⟩ := hs2
        exact ⟨a.1, (congrArg Prod.fst he).symm⟩
      obtain ⟨a, ha⟩ := hq1
      simp only [Option.map_some']
      rw [if_neg ?notscheme]
      case notscheme =>
        intro hcond
        have hall := hcond.2.2
        rw [List.all_eq_true] at hall
        have hmem : '#' ∈ X ++ q1 := by
          rw [ha, List.mem_append]
          right
          exact List.mem_cons_self _ _
        exact absurd (hall '#' hmem) (by decide)

theorem extractScheme_rest_no_hash {X : List Char} (hX : '#' ∉ X) :
    '#' ∉ (extractScheme X).2 := by
  cases hs : splitAtFirst ':' X with
  | none =>
    unfold extractScheme
    simp only [hs]
    exact hX
  | some p =>
    obtain ⟨p1, p2⟩ := p
    obtain ⟨hdec, _⟩ := splitAtFirst_decomp hs
    unfold extractScheme
    simp only [hs]
    by_cases hc : p1 ≠ [] ∧ ((p1.headD ' ').isAlpha = true) ∧ (p1.all isSchemeChar = true)
    · rw [if_pos hc]
      intro hmem
      apply hX
      rw [hdec, List.mem_append]
      right
      exact List.mem_cons_of_mem _ hmem
    · rw [if_neg hc]
      exact hX

theorem splitNetloc_append_hash {R : List Char} (hR : '#' ∉ R) (F : List Char) :
    splitNetloc (R ++ '#' :: F)
      = ((splitNetloc R).1, (splitNetloc R).2 ++ '#' :: F) := by
  unfold splitNetloc
  rcases R with _ | ⟨a, _ | ⟨b, rest⟩⟩
  · rw [if_neg ?h1, if_neg ?h2]
    case h1 =>
      intro h
      cases F with
      | nil => exact absurd h (by decide)
      | cons f fs =>
        simp only [List.nil_append, List.take_succ_cons, List.take_zero] at h
        injection h with h1 h2
        exact absurd h1 (by decide)
    case h2 => decide
  · rw [if_neg ?h3, if_neg ?h4]
    case h3 =>
      intro h
      simp only [List.cons_append, List.nil_append, List.take_succ_cons,
        List.take_zero] at h
      injection h with h1 h2
      injection h2 with h2 h3
      exact absurd h2 (by decide)
    case h4 =>
      intro h
      have := congrArg List.length h
      simp at this
  · have hrest : '#' ∉ rest := by
      intro hm
      exact hR (List.mem_cons_of_mem _ (List.mem_cons_of_mem _ hm))
    by_cases hab : a = '/' ∧ b = '/'
    · obtain ⟨ha, hb⟩ := hab
      subst ha
      subst hb
      rw [if_pos (by simp), if_pos (by simp)]
      simp only [List.cons_append, List.drop_succ_cons, List.drop_zero,
        List.append_eq]
      rw [takeWhile_append_stop (by decide), dropWhile_append_stop (by decide)]
    · have hcond : ∀ (t : List Char), ((a :: b :: t).take 2 = ['/', '/']) → False := by
        intro t ht
        simp only [List.take_succ_cons, List.take_zero] at ht
        injection ht with ht1 ht2
        injection ht2 with ht2 _
        exact hab ⟨ht1, ht2⟩
      rw [if_neg ?hc1, if_neg ?hc2]
      case hc1 =>
        intro h
        rw [List.cons_append, List.cons_append] at h
        exact hcond _ h
      case hc2 =>
        intro h
        exact hcond _ h

theorem splitNetloc_rest_no_hash {R : List Char} (hR : '#' ∉ R) :
    '#' ∉ (splitNetloc R).2 := by
  unfold splitNetloc
  split
  · intro hm
    have hsub := List.dropWhile_subset (l := R.drop 2) isNetlocChar hm
    exact hR (List.drop_subset 2 R hsub)
  · exact hR

theorem splitFragment_append_hash {R : List Char} (hR : '#' ∉ R) (F : List Char) :
    splitFragment (R ++ '#' :: F) = (R, F) := by
  unfold splitFragment
  rw [splitAtFirst_mid hR]

theorem splitFragment_no_hash {R : List Char} (hR : '#' ∉ R) :
    splitFragment R = (R, []) := by
  unfold splitFragment
  rw [splitAtFirst_eq_none hR]

theorem removeUnsafe_append (l t : List Char) :
    removeUnsafe (l ++ t) = removeUnsafe l ++ removeUnsafe t :=
  List.filter_append l t

theorem removeUnsafe_hash_cons (t : List Char) :
    removeUnsafe ('#' :: t) = '#' :: removeUnsafe t := by
  unfold removeUnsafe
  rw [List.filter_cons_of_pos (by decide)]

theorem removeUnsafe_not_mem {l : List Char} (h : '#' ∉ l) :
    '#' ∉ removeUnsafe l :=
  fun hm => h (List.mem_of_mem_filter hm)

/-- `urlparse` drops the fragment: parsing `X#F` (with `#` not in `X`)
yields the parse of `X` with only the `fragment` field different, hence
the same canonical hash string. -/
theorem pyUrlparse_append_hash {X : List Char} (hX : '#' ∉ X) (F : List Char) :
    pyUrlparse (X ++ '#' :: F)
      = (pyUrlparse X).map (fun p =>
          { p with fragment := removeUnsafe F }) := by
  simp only [pyUrlparse]
  rw [removeUnsafe_append, removeUnsafe_hash_cons]
  have hX' : '#' ∉ removeUnsafe X := removeUnsafe_not_mem hX
  rw [extractScheme_append_hash hX']
  have hR1 : '#' ∉ (extractScheme (removeUnsafe X)).2 := extractScheme_rest_no_hash hX'
  rw [splitNetloc_append_hash hR1]
  have hR2 : '#' ∉ (splitNetloc (extractScheme (removeUnsafe X)).2).2 :=
    splitNetloc_rest_no_hash hR1
  rw [splitFragment_append_hash hR2, splitFragment_no_hash hR2]
  simp only
  split
  · rfl
  · rfl

/-- The canonical string ignores the fragment. -/
theorem hashUrlL_append_hash {X : List Char} (hX : '#' ∉ X) (F : List Char) :
    (pyUrlparse (X ++ '#' :: F)).map renderNorm = (pyUrlparse X).map renderNorm := by
  rw [pyUrlparse_append_hash hX F, Option.map_map]
  cases pyUrlparse X with
  | none => rfl
  | some p => rfl

theorem stripL_not_mem {l : List Char} (h : '#' ∉ l) : '#' ∉ stripL l := by
  intro hm
  unfold stripL stripRight stripLeft at hm
  rw [List.mem_reverse] at hm
  have h1 := List.dropWhile_subset isWs hm
  rw [List.mem_reverse] at h1
  exact h (List.dropWhile_subset isWs h1)

theorem asString_inj {l1 l2 : List Char} (h : l1.asString = l2.asString) :
    l1 = l2 := congrArg String.data h

theorem asciiLower_hash : asciiLower '#' = '#' := by decide

/-- C5: URL-identity determinism of `_hash_url`.
(a) two URLs equal up to ASCII letter case hash identically;
(b) appending a trailing fragment (`#...`) to a fragment-free URL with no
trailing whitespace does not change the hash (so two URLs differing only
in their trailing fragment hash identically);
(c) two URLs whose normalized parses agree on scheme, host and path but
differ in the (case-folded) query string receive different hashes. -/
theorem url_normalization_determinism :
    (∀ u1 u2 : String, lowerL u1.toList = lowerL u2.toList →
      hashUrl u1 = hashUrl u2)
    ∧ (∀ base f : String, '#' ∉ base.toList →
        (∀ c, base.toList.getLast? = some c → isWs c = false) →
        hashUrl (base ++ "#" ++ f) = hashUrl base)
    ∧ (∀ (u1 u2 : String) (p1 p2 : UrlParts),
        pyUrlparse (stripL (lowerL u1.toList)) = some p1 →
        pyUrlparse (stripL (lowerL u2.toList)) = some p2 →
        p1.scheme = p2.scheme → p1.netloc = p2.netloc → p1.path = p2.path →
        p1.query ≠ p2.query →
        hashUrl u1 ≠ hashUrl u2) := by
  refine ⟨?_, ?_, ?_⟩
  · intro u1 u2 h
    unfold hashUrl hashUrlL
    rw [h]
  · intro base f h1 h2
    unfold hashUrl hashUrlL
    have htl : (base ++ "#" ++ f).toList = base.toList ++ '#' :: f.toList := by
      show (base ++ "#" ++ f).data = base.data ++ '#' :: f.data
      rw [String.data_append, String.data_append]
      show (base.data ++ ['#']) ++ f.data = _
      rw [List.append_assoc, List.singleton_append]
    rw [htl]
    have hlow : lowerL (base.toList ++ '#' :: f.toList)
        = lowerL base.toList ++ '#' :: lowerL f.toList := by
      unfold lowerL
      rw [List.map_append, List.map_cons, asciiLower_hash]
    rw [hlow]
    have hlast : ∀ c, (lowerL base.toList).getLast? = some c → isWs c = false := by
      intro c hc
      unfold lowerL at hc
      rw [List.getLast?_map] at hc
      cases hg : base.toList.getLast? with
      | none => rw [hg] at hc; exact absurd hc (by simp)
      | some c0 =>
        rw [hg] at hc
        simp only [Option.map_some', Option.some.injEq] at hc
        rw [← hc, isWs_asciiLower]
        exact h2 c0 hg
    rw [stripL_append_hash _ _ hlast]
    have hnm : '#' ∉ stripL (lowerL base.toList) :=
      stripL_not_mem (hash_not_mem_lowerL h1)
    rw [hashUrlL_append_hash hnm]
  · intro u1 u2 p1 p2 hp1 hp2 hsch hnet hpath hq heq
    unfold hashUrl hashUrlL at heq
    rw [hp1, hp2] at heq
    simp only [Option.map_some', Option.some.injEq] at heq
    have hrender : renderNorm p1 = renderNorm p2 := asString_inj heq
    unfold renderNorm at hrender
    rw [hsch, hnet, hpath] at hrender
    have hopt := List.append_cancel_left hrender
    by_cases h1e : p1.query = []
    · by_cases h2e : p2.query = []
      · exact hq (h1e.trans h2e.symm)
      · rw [if_neg (by simpa using h1e), if_pos (by simpa using h2e)] at hopt
        · exact absurd hopt (by simp)
    · by_cases h2e : p2.query = []
      · rw [if_pos (by simpa using h1e), if_neg (by simpa using h2e)] at hopt
        · exact absurd hopt (by simp)
      · rw [if_pos (by simpa using h1e), if_pos (by simpa using h2e)] at hopt
        injection hopt with h3 h4
        exact hq h4

/-- C5 witness: concrete instances — case-folded equality, trailing
fragment dropped, and differing queries separated. -/
theorem url_normalization_determinism_witness :
    (lowerL ("HTTP://A.com/X?Q=1" : String).toList
        = lowerL ("http://a.com/x?q=1" : String).toList)
    ∧ hashUrl "HTTP://A.com/X?Q=1" = hashUrl "http://a.com/x?q=1"
    ∧ hashUrl ("http://a.com/p" ++ "#" ++ "frag") = hashUrl "http://a.com/p"
    ∧ hashUrl "http://a.com/p?a=1" ≠ hashUrl "http://a.com/p?b=2" := by
  refine ⟨by decide, ?_, ?_, ?_⟩
  · exact url_normalization_determinism.1 "HTTP://A.com/X?Q=1" "http://a.com/x?q=1"
      (by decide)
  · exact url_normalization_determinism.2.1 "http://a.com/p" "frag" (by decide)
      (fun c hc => by
        have h : (("http://a.com/p" : String).toList).getLast? = some 'p' := rfl
        rw [h] at hc
        injection hc with hc
        subst hc
        decide)
  · exact url_normalization_determinism.2.2 "http://a.com/p?a=1" "http://a.com/p?b=2"
      ⟨"http".toList, "a.com".toList, "/p".toList, [], "a=1".toList, []⟩
      ⟨"http".toList, "a.com".toList, "/p".toList, [], "b=2".toList, []⟩
      (by rfl) (by rfl) rfl rfl rfl (by decide)

/-- C5 counterexample to the claim as literally stated: (1) the URLs
`http://a.com/p?A=1` and `http://a.com/p?a=1` differ in their query
parameters (`A=1` vs `a=1`), yet normalization lower-cases the whole URL
first and produces the same hash; (2) `http://a.com/p ` (trailing space)
and `http://a.com/p #f` differ only in a trailing fragment, yet hash
differently, because stripping removes the trailing space only when no
fragment follows it. -/
theorem url_normalization_claim_counterexample :
    (hashUrl "http://a.com/p?A=1" = hashUrl "http://a.com/p?a=1"
      ∧ ("?A=1" : String) ≠ "?a=1")
    ∧ (hashUrl "http://a.com/p " ≠ hashUrl ("http://a.com/p " ++ "#" ++ "f")) := by
  refine ⟨⟨by rfl, by decide⟩, by decide⟩

end NeuronAuto
